import Mathlib

/-!
Verification of the `gh-deps` interactive controller and its helper packages.

Go strings are embedded as `List Char` (`Str`), Go `int` as `Int` where the
value can go negative (the TUI cursor) and as `Nat` for identifiers and
counts.  String-typed Go enums (`MergeableState`, `CheckStatus`, `BotType`)
stay strings, exactly as in the source.
-/

namespace GhDeps

/-- Go strings, embedded as lists of characters. -/
abbrev Str := List Char

/-- Coerce a Lean string literal to the `Str` embedding. -/
def str (s : String) : Str := s.data

/-- ASCII lower-casing of one character; model of Go's per-rune `ToLower`
on the ASCII range the program manipulates. -/
def lowerChar (c : Char) : Char :=
  if 'A' ≤ c ∧ c ≤ 'Z' then Char.ofNat (c.toNat + 32) else c

/-- Model of Go `strings.ToLower`. -/
def toLowerStr (s : Str) : Str := s.map lowerChar

/-- Test that `p` is a leading segment of `s`
(Go `strings.HasPrefix p` applied to `s`). -/
def begins : Str → Str → Bool
  | [], _ => true
  | _ :: _, [] => false
  | a :: p, b :: s => a == b && begins p s

/-- Model of Go `strings.Contains s sub`: `sub` occurs contiguously in `s`. -/
def containsStr (s sub : Str) : Bool :=
  begins sub s ||
    match s with
    | [] => false
    | _ :: t => containsStr t sub

/-- Model of Go `strings.Split` with a one-character separator. -/
def splitChar (sep : Char) : Str → List Str
  | [] => [[]]
  | c :: cs =>
    if c = sep then [] :: splitChar sep cs
    else
      match splitChar sep cs with
      | [] => [[c]]
      | h :: t => (c :: h) :: t

/-- Model of Go `strings.Join` with a one-character separator. -/
def joinChar (sep : Char) : List Str → Str
  | [] => []
  | [s] => s
  | s :: t => s ++ sep :: joinChar sep t

/-- Decimal rendering of a natural number (for `fmt.Sprintf` verbs). -/
def natStr (n : Nat) : Str := Nat.toDigits 10 n

/-- Lexicographic byte order on strings (Go `<` on `string`). -/
def ltStr : Str → Str → Bool
  | [], [] => false
  | [], _ :: _ => true
  | _ :: _, [] => false
  | a :: s, b :: t => if a < b then true else if a = b then ltStr s t else false

/-! ## internal/models -/

/-- The string-typed Go enum `MergeableState`. -/
abbrev MergeableState := Str

def MergeableStateMergeable : MergeableState := str "MERGEABLE"

def MergeableStateConflicting : MergeableState := str "CONFLICTING"

def MergeableStateUnknown : MergeableState := str "UNKNOWN"

/-- The string-typed Go enum `CheckStatus`, holding the display glyph. -/
abbrev CheckStatus := Str

def StatusSuccess : CheckStatus := str "✅"

def StatusFailure : CheckStatus := str "❌"

def StatusPending : CheckStatus := str "⏳"

def StatusNone : CheckStatus := str "-"

/-- A single check run from GitHub (`models.CheckRun`). -/
structure CheckRun where
  Name : Str
  Status : Str
  Conclusion : Str
deriving DecidableEq

/-- Aggregated check results (`models.CheckSummary`). -/
structure CheckSummary where
  Status : CheckStatus
  Total : Nat
deriving DecidableEq, Inhabited

/-- Model of Go `strings.EqualFold` (case-insensitive equality). -/
def equalFold (a b : Str) : Bool := toLowerStr a == toLowerStr b

/-- Whether a check run's `Status` is `"completed"`, case-insensitively;
the loop guard of `AggregateCheckStatus`. -/
def checkCompleted (c : CheckRun) : Bool := equalFold c.Status (str "completed")

/-- Whether a completed check run's lower-cased conclusion is one of the
passing conclusions `success`, `neutral`, `skipped`. -/
def passingConclusion (c : CheckRun) : Bool :=
  let conc := toLowerStr c.Conclusion
  conc == str "success" || conc == str "neutral" || conc == str "skipped"

/-- One iteration of the `AggregateCheckStatus` loop over the
`(hasFailure, hasPending)` accumulator. -/
def aggStep (acc : Bool × Bool) (c : CheckRun) : Bool × Bool :=
  if !checkCompleted c then (acc.1, true)
  else if passingConclusion c then acc
  else (true, acc.2)

/-- Go `models.AggregateCheckStatus` (case-insensitive variant): overall CI
status from a list of check runs. -/
def AggregateCheckStatus (checks : List CheckRun) : CheckSummary :=
  if checks = [] then { Status := StatusNone, Total := 0 }
  else
    let acc := checks.foldl aggStep (false, false)
    let status :=
      if acc.1 then StatusFailure
      else if acc.2 then StatusPending
      else StatusSuccess
    { Status := status, Total := checks.length }

/-- The string-typed Go enum `BotType`. -/
abbrev BotType := Str

def BotRenovate : BotType := str "renovate"

def BotDependabot : BotType := str "dependabot"

def BotGitHubActions : BotType := str "github-actions"

/-- Go `BotType.DisplayName`: the bot type string itself. -/
def DisplayName (b : BotType) : Str := b

/-- Go `BotType.RebaseCommand`: the comment that triggers a rebase, or empty. -/
def RebaseCommand (b : BotType) : Str :=
  if b = BotDependabot then str "@dependabot rebase" else []

/-- Go `BotType.SupportsRebase`. -/
def SupportsRebase (b : BotType) : Bool :=
  b == BotDependabot || b == BotRenovate

/-- Go `BotType.UsesCheckboxRebase`. -/
def UsesCheckboxRebase (b : BotType) : Bool := b == BotRenovate

/-- Go `models.PullRequest`.  `CreatedAt` (a `time.Time`) is embedded as a
Unix timestamp; the `Labels` field is present in the variant the TUI and
the fetch client construct. -/
structure PullRequest where
  Repository : Str
  Number : Nat
  Title : Str
  Body : Str
  Author : Str
  CreatedAt : Nat
  URL : Str
  HeadSHA : Str
  BotType : BotType
  CheckSummary : CheckSummary
  Version : Str
  MergeableState : MergeableState
  Labels : List Str
deriving DecidableEq, Inhabited

/-- Go `PullRequest.RepoName`: the part after the `/` of `owner/repo`, or the
whole string when there is no slash. -/
def RepoName (pr : PullRequest) : Str :=
  let parts := splitChar '/' pr.Repository
  if 2 ≤ parts.length then parts.getD 1 [] else pr.Repository

/-! ## internal/api: ParseRepository and the merge call -/

/-- Go `api.ParseRepository`: split `owner/repo`; error unless the split has
exactly two parts. -/
def ParseRepository (repository : Str) : Except Str (Str × Str) :=
  let parts := splitChar '/' repository
  if parts.length ≠ 2 then
    Except.error (str "invalid repository format: " ++ repository ++ str " (expected owner/repo)")
  else Except.ok (parts.getD 0 [], parts.getD 1 [])

/-- Response of GitHub's merge API (`api.MergeResponse`). -/
structure MergeResponse where
  SHA : Str
  Merged : Bool
  Message : Str
deriving DecidableEq

/-! ## internal/api/update_pr.go: the Renovate rebase checkbox

`CheckRenovateRebaseCheckbox` applies the multiline regex
`^(\s*-\s*\[)\s(\]\s*(?:<!--[^>]*-->)?\s*.*?rebase.*?)$` to the PR body
(`MatchString`, then `ReplaceAllString` with `${1}x${2}`).  The embedding
below implements exactly what Go's engine computes for this pattern,
derived atom by atom from RE2's leftmost-first (PCRE-preference)
semantics.  The determinization steps:

- `(?m)` makes `^` match at offset 0 and after every newline, and `$`
  before every newline and at the end; `.` does not match a newline, but
  `\s` (= `[\t\n\f\r ]`) and `[^>]` DO match newlines, so a match can
  span lines.  The scan therefore proceeds line start by line start, and
  a successful match always ends at a line end, so `ReplaceAllString`'s
  continuation point is the newline terminating the match.
- In `\s*-\s*\[`, each greedy `\s*` is forced to the maximal whitespace
  run: stopping earlier leaves a whitespace character where the literal
  `-` or `[` must match.  Likewise the single `\s` between the brackets
  and the literal `]` leave no choice.
- In group 2, after `\]`: the optional comment `(?:<!--[^>]*-->)?` can
  only start at the end of the maximal whitespace run (its `<` is not
  whitespace), and `[^>]*` cannot cross a `>`, so the comment, when it
  matches, ends at the first `>` after `<!--`, which must close a `-->`.
  The engine prefers the comment present; if that path finds no
  `rebase`, it backtracks to the comment-absent path.
- `\s*.*?rebase`: the `\s*` runs may cross newlines while `.*?` cannot;
  splitting the whitespace run anywhere short of its end only strands
  `.*?` in an all-whitespace line segment, so `rebase` is reachable
  exactly when it occurs in the line containing the first
  non-whitespace position — and the lazy `.*?` picks the first such
  occurrence.  The final lazy `.*?$` then extends the match to that
  line's end. -/

/-- Go's `\s` character class: `[\t\n\f\r ]`. -/
def isWsC (c : Char) : Bool :=
  c == ' ' || c == '\t' || c == '\n' || c == '\x0c' || c == '\r'

/-- Negation of the newline test: the character class of `.` (and of a
line's interior). -/
def notNl (c : Char) : Bool := !(c == '\n')

/-- The literal `rebase` the regex requires after the brackets. -/
def rebaseStr : Str := str "rebase"

/-- Split a string at its first `>`: `some (before, after)` with no `>`
in `before` (the shape `[^>]*` forces on the comment's interior). -/
def breakAtGt : Str → Option (Str × Str)
  | [] => none
  | c :: cs =>
    if c = '>' then some ([], cs)
    else
      match breakAtGt cs with
      | some (u, v) => some (c :: u, v)
      | none => none

/-- Parse `<!--[^>]*-->` at the front of `s`: the comment (ending at the
first `>` after `<!--`, which must close a `-->`) and the rest. -/
def parseComment (s : Str) : Option (Str × Str) :=
  if begins (str "<!--") s then
    match breakAtGt (s.drop 4) with
    | some (u, v) =>
      if begins ['-', '-'] u.reverse then
        some ('<' :: '!' :: '-' :: '-' :: (u ++ ['>']), v)
      else none
    | none => none
  else none

/-- `.*?rebase.*?$` from a non-whitespace position: succeeds when
`rebase` occurs in the current line, and the lazy tail extends the match
to that line's end.  Returns the consumed line and the remainder (empty
or starting at the terminating newline). -/
def findRebaseLine (s : Str) : Option (Str × Str) :=
  let line := s.takeWhile notNl
  let rest := s.dropWhile notNl
  if containsStr line rebaseStr then some (line, rest) else none

/-- Group 2 after the literal `]`: `\s*(?:<!--[^>]*-->)?\s*.*?rebase.*?$`
under leftmost-first semantics, as derived in the section comment.
Returns the consumed text and the remainder at the match end. -/
def r2Match (rest : Str) : Option (Str × Str) :=
  let wsA := rest.takeWhile isWsC
  let s1 := rest.dropWhile isWsC
  let fb := (findRebaseLine s1).map (fun p => (wsA ++ p.1, p.2))
  match parseComment s1 with
  | some (com, v) =>
    let wsB := v.takeWhile isWsC
    let s2 := v.dropWhile isWsC
    match findRebaseLine s2 with
    | some (ln, rem) => some (wsA ++ com ++ wsB ++ ln, rem)
    | none => fb
  | none => fb

/-- A match attempt of the whole pattern at a line start: on success,
the rewritten match text (the single whitespace between the brackets
replaced by `x`, as `${1}x${2}` does) and the remainder at the match
end. -/
def attemptMatch (l : Str) : Option (Str × Str) :=
  let ws1 := l.takeWhile isWsC
  match l.dropWhile isWsC with
  | c1 :: r2 =>
    if c1 = '-' then
      let ws2 := r2.takeWhile isWsC
      match r2.dropWhile isWsC with
      | c2 :: w :: c3 :: rest =>
        if c2 = '[' ∧ c3 = ']' ∧ isWsC w = true then
          match r2Match rest with
          | some (g2, rem) => some (ws1 ++ '-' :: (ws2 ++ '[' :: 'x' :: ']' :: g2), rem)
          | none => none
        else none
      | _ => none
    else none
  | _ => none

/-- The scan of `ReplaceAllString`, line start by line start: a hit is
rewritten and the scan resumes after the match's final line; a miss
copies the line.  The flag records whether any match was found
(`MatchString`).  The fuel only bounds the recursion; every step consumes
at least one character, so `length + 1` fuel never runs out. -/
def replaceAllRebaseFuel : Nat → Str → Bool × Str
  | 0, body => (false, body)
  | fuel + 1, body =>
    match attemptMatch body with
    | some (rew, rem) =>
      match rem with
      | [] => (true, rew)
      | nl :: tail =>
        let r := replaceAllRebaseFuel fuel tail
        (true, rew ++ nl :: r.2)
    | none =>
      let line := body.takeWhile notNl
      match body.dropWhile notNl with
      | [] => (false, line)
      | nl :: tail =>
        let r := replaceAllRebaseFuel fuel tail
        (r.1, line ++ nl :: r.2)

/-- The scan with always-sufficient fuel. -/
def replaceAllRebase (body : Str) : Bool × Str :=
  replaceAllRebaseFuel (body.length + 1) body

/-- Go `api.CheckRenovateRebaseCheckbox`: error when the pattern matches
nowhere in the body; otherwise the body with every match rewritten. -/
def CheckRenovateRebaseCheckbox (body : Str) : Except Str Str :=
  let r := replaceAllRebase body
  if r.1 then Except.ok r.2
  else Except.error (str "rebase checkbox not found in PR body")

/-- The claim's per-line reading of the pattern (the pattern confined to
a single line): used to state the original claim, which the program
refutes on bodies where a match spans a line boundary. -/
def matchRebaseLine (l : Str) : Option Str :=
  let ws1 := l.takeWhile isWsC
  match l.dropWhile isWsC with
  | c1 :: r2 =>
    if c1 = '-' then
      let ws2 := r2.takeWhile isWsC
      match r2.dropWhile isWsC with
      | c2 :: w :: c3 :: rest =>
        if c2 = '[' ∧ c3 = ']' ∧ isWsC w = true ∧ containsStr rest rebaseStr = true then
          some (ws1 ++ '-' :: (ws2 ++ '[' :: 'x' :: ']' :: rest))
        else none
      | _ => none
    else none
  | _ => none

/-- The language of `<!--[^>]*-->`. -/
def CommentLang (cm : Str) : Prop :=
  ∃ interior : Str, (∀ ch ∈ interior, ch ≠ '>') ∧
    cm = '<' :: '!' :: '-' :: '-' :: (interior ++ '-' :: '-' :: '>' :: [])

/-- The language of the second capture group's tail
`\s*(?:<!--[^>]*-->)?\s*.*?rebase.*?` up to the line end `$`. -/
def G2Lang (g2 : Str) : Prop :=
  ∃ wsA cm wsB d1 d2 : Str,
    (∀ c ∈ wsA, isWsC c = true) ∧ (cm = [] ∨ CommentLang cm) ∧
    (∀ c ∈ wsB, isWsC c = true) ∧
    (∀ c ∈ d1, c ≠ '\n') ∧ (∀ c ∈ d2, c ≠ '\n') ∧
    g2 = wsA ++ cm ++ wsB ++ d1 ++ rebaseStr ++ d2

/-- Dollar anchor under `(?m)`: the end of the string or a newline follows. -/
def LineEnd (rem : Str) : Prop := rem = [] ∨ ∃ t, rem = '\n' :: t

/-- A match of the whole pattern starts at the head of `s` (the regex
language, stated existentially). -/
def MatchAt (s : Str) : Prop :=
  ∃ ws1 ws2 : Str, ∃ w : Char, ∃ g2 rem : Str,
    (∀ c ∈ ws1, isWsC c = true) ∧ (∀ c ∈ ws2, isWsC c = true) ∧ isWsC w = true ∧
    G2Lang g2 ∧ LineEnd rem ∧
    s = ws1 ++ '-' :: (ws2 ++ '[' :: w :: ']' :: (g2 ++ rem))

/-- Caret anchor under `(?m)`: the text before a match is empty or ends with a
newline. -/
def LineBoundary (pre : Str) : Prop := pre = [] ∨ ∃ p, pre = p ++ ['\n']

/-- How the body is rewritten: scanning line start by line start,
match-free lines are copied and each match has the single whitespace
between its brackets replaced by `x`, all other text unchanged. -/
inductive Rew : Str → Str → Prop where
  | nil : Rew [] []
  | lastLine (l : Str) : (∀ c ∈ l, c ≠ '\n') → ¬ MatchAt l → Rew l l
  | skipLine (l rest out : Str) : (∀ c ∈ l, c ≠ '\n') → ¬ MatchAt (l ++ '\n' :: rest) →
      Rew rest out → Rew (l ++ '\n' :: rest) (l ++ '\n' :: out)
  | hitLast (ws1 ws2 : Str) (w : Char) (g2 : Str) :
      (∀ c ∈ ws1, isWsC c = true) → (∀ c ∈ ws2, isWsC c = true) → isWsC w = true →
      G2Lang g2 →
      Rew (ws1 ++ '-' :: (ws2 ++ '[' :: w :: ']' :: g2))
        (ws1 ++ '-' :: (ws2 ++ '[' :: 'x' :: ']' :: g2))
  | hitCont (ws1 ws2 : Str) (w : Char) (g2 rest out : Str) :
      (∀ c ∈ ws1, isWsC c = true) → (∀ c ∈ ws2, isWsC c = true) → isWsC w = true →
      G2Lang g2 → Rew rest out →
      Rew (ws1 ++ '-' :: (ws2 ++ '[' :: w :: ']' :: (g2 ++ '\n' :: rest)))
        (ws1 ++ '-' :: (ws2 ++ '[' :: 'x' :: ']' :: (g2 ++ '\n' :: out)))

/-! ## internal/interactive/tui.go: the controller

The second (current) variant of the file is embedded.  The bubbletea
`model` struct keeps its fields; the `client` and `ctx` handles, which only
feed the asynchronous commands, are dropped.  `Update` is split into the
per-message handlers it inlines; it returns the next model (the returned
`tea.Cmd` spawns no state change of its own). -/

/-- The TUI `model` struct. -/
structure Model where
  prs : List PullRequest
  filtered : List PullRequest
  cursor : Int
  query : Str
  searchMode : Bool
  confirmMode : Bool
  confirmingPR : Option PullRequest
  confirmRebase : Bool
  target : Str
  isOrganization : Bool
  limit : Nat
  verbose : Bool
  message : Str
  messageType : Str
  width : Int
  height : Int
  merging : Bool
  refreshing : Bool
  rebasing : Bool
  done : Bool
deriving DecidableEq

/-- The messages `Update` consumes (`tea.WindowSizeMsg`, `mergeResultMsg`,
`rebaseResultMsg`, `refreshPRsMsg`, `tea.KeyMsg` as its string form). -/
inductive Msg where
  | windowSize (w h : Int)
  | mergeResult (success : Bool) (message : Str)
  | rebaseResult (success : Bool) (message : Str)
  | refreshPRs (prs : List PullRequest) (err : Option Str)
  | key (k : Str)

/-- The composite searchable text of `filterPRs`:
`fmt.Sprintf("%s %s %s %s %s", RepoName, Title, DisplayName, Join(Labels," "), Version)`. -/
def searchText (pr : PullRequest) : Str :=
  RepoName pr ++ ' ' :: pr.Title ++ ' ' :: DisplayName pr.BotType ++
    ' ' :: joinChar ' ' pr.Labels ++ ' ' :: pr.Version

/-- The visible list `filterPRs` computes for a given full list and query:
everything for the empty query, otherwise the case-insensitive substring
filter over `searchText`. -/
def visibleList (prs : List PullRequest) (query : Str) : List PullRequest :=
  if query = [] then prs
  else prs.filter (fun pr => containsStr (toLowerStr (searchText pr)) (toLowerStr query))

/-- Go `model.filterPRs`: recompute `filtered` from `prs` and `query`, and
reset or clamp the cursor exactly as the source does. -/
def filterPRs (m : Model) : Model :=
  if m.query = [] then { m with filtered := m.prs, cursor := 0 }
  else
    let filtered := visibleList m.prs m.query
    let cursor1 := if (filtered.length : Int) ≤ m.cursor then (filtered.length : Int) - 1 else m.cursor
    let cursor2 := if cursor1 < 0 then 0 else cursor1
    { m with filtered := filtered, cursor := cursor2 }

/-- Removal of the first element of `prs` whose repository and number match
`target` (the loop in the `mergeResultMsg` handler). -/
def removeFirstById : List PullRequest → PullRequest → List PullRequest
  | [], _ => []
  | p :: t, target =>
    if p.Number = target.Number ∧ p.Repository = target.Repository then t
    else p :: removeFirstById t target

/-- Insertion step for the repository-name sort. -/
def insertByRepo (p : PullRequest) : List PullRequest → List PullRequest
  | [] => [p]
  | q :: t => if ltStr (RepoName p) (RepoName q) then p :: q :: t else q :: insertByRepo p t

/-- The `sort.Slice` call of the refresh handler, ordering by `RepoName`
ascending (the claims do not depend on how the unstable sort breaks ties). -/
def sortByRepo (prs : List PullRequest) : List PullRequest :=
  prs.foldr insertByRepo []

/-- The `mergeResultMsg` branch of `Update`. -/
def handleMergeResult (m : Model) (success : Bool) (message : Str) : Model :=
  let m1 := { m with merging := false, message := message }
  if success then
    let m2 := { m1 with messageType := str "success" }
    let m3 :=
      if m2.cursor < (m2.filtered.length : Int) then
        let mergedPR := m2.filtered.getD m2.cursor.toNat default
        let filtered := m2.filtered.take m2.cursor.toNat ++ m2.filtered.drop (m2.cursor.toNat + 1)
        let prs := removeFirstById m2.prs mergedPR
        let cursor :=
          if (filtered.length : Int) ≤ m2.cursor ∧ 0 < m2.cursor then m2.cursor - 1 else m2.cursor
        { m2 with filtered := filtered, prs := prs, cursor := cursor }
      else m2
    { m3 with refreshing := true, message := str "Refreshing PRs...", messageType := [] }
  else { m1 with messageType := str "error" }

/-- The `refreshPRsMsg` branch of `Update`. -/
def handleRefreshResult (m : Model) (prs : List PullRequest) (err : Option Str) : Model :=
  let m1 := { m with refreshing := false }
  match err with
  | some e =>
    { m1 with message := str "Failed to refresh PRs: " ++ e, messageType := str "error" }
  | none =>
    let m2 := filterPRs { m1 with prs := sortByRepo prs }
    let cursor1 :=
      if (m2.filtered.length : Int) ≤ m2.cursor then (m2.filtered.length : Int) - 1 else m2.cursor
    let cursor2 := if cursor1 < 0 then 0 else cursor1
    { m2 with
      cursor := cursor2,
      message := str "Refreshed: " ++ natStr m2.prs.length ++ str " PRs loaded",
      messageType := str "success" }

/-- Message clearing at the top of the `tea.KeyMsg` branch. -/
def clearMsgOnKey (m : Model) : Model :=
  if m.message ≠ [] ∧ m.confirmMode = false then { m with message := [], messageType := [] } else m

/-- The `case "ctrl+c"` branch. -/
def keyCtrlC (m : Model) : Model := { m with done := true }

/-- The `case "q", "esc"` branch. -/
def keyQEsc (m : Model) : Model :=
  if m.confirmMode then
    { m with confirmMode := false, confirmingPR := none, confirmRebase := false }
  else if m.searchMode then
    filterPRs { m with searchMode := false, query := [] }
  else { m with done := true }

/-- The `case "/"` branch. -/
def keySlash (m : Model) : Model :=
  if m.confirmMode = false then { m with searchMode := true } else m

/-- The `case "r"` branch. -/
def keyR (m : Model) : Model :=
  if m.searchMode = false ∧ m.confirmMode = false ∧ m.merging = false ∧ m.refreshing = false then
    { m with refreshing := true, message := str "Refreshing PRs...", messageType := [] }
  else m

/-- The `case "o"` branch; `browserOk` is the result of the synchronous
`openBrowser` call. -/
def keyO (browserOk : Bool) (m : Model) : Model :=
  if m.searchMode = false ∧ m.confirmMode = false ∧ 0 < m.filtered.length ∧
      m.cursor < (m.filtered.length : Int) then
    let pr := m.filtered.getD m.cursor.toNat default
    if browserOk then
      { m with
        message := str "Opened PR #" ++ natStr pr.Number ++ str " in browser",
        messageType := str "success" }
    else
      { m with message := str "Failed to open browser", messageType := str "error" }
  else m

/-- The `case "enter", "y"` branch. -/
def keyEnterY (m : Model) : Model :=
  if m.confirmMode then
    if m.confirmingPR ≠ none ∧ m.merging = false ∧ m.rebasing = false then
      let m1 := { m with confirmMode := false, confirmingPR := none }
      if m1.confirmRebase then
        { m1 with
          rebasing := true, message := str "Triggering rebase...",
          messageType := [], confirmRebase := false }
      else
        { m1 with merging := true, message := str "Merging...", messageType := [] }
    else m
  else if m.searchMode then { m with searchMode := false }
  else if 0 < m.filtered.length ∧ m.cursor < (m.filtered.length : Int) then
    let pr := m.filtered.getD m.cursor.toNat default
    { m with
      confirmMode := true, confirmingPR := some pr,
      confirmRebase :=
        pr.MergeableState = MergeableStateConflicting ∧ SupportsRebase pr.BotType }
  else m

/-- The `case "n"` branch. -/
def keyN (m : Model) : Model :=
  if m.confirmMode then
    { m with confirmMode := false, confirmingPR := none, confirmRebase := false }
  else m

/-- The `case "up", "k"` branch. -/
def keyUp (m : Model) : Model :=
  if m.searchMode = false ∧ m.confirmMode = false ∧ 0 < m.cursor then
    { m with cursor := m.cursor - 1 }
  else m

/-- The `case "down", "j"` branch. -/
def keyDown (m : Model) : Model :=
  if m.searchMode = false ∧ m.confirmMode = false ∧ m.cursor < (m.filtered.length : Int) - 1 then
    { m with cursor := m.cursor + 1 }
  else m

/-- The `case "backspace"` branch. -/
def keyBackspace (m : Model) : Model :=
  if m.searchMode ∧ 0 < m.query.length then
    filterPRs { m with query := m.query.dropLast }
  else m

/-- Byte length of a string's UTF-8 encoding: Go `len(s)` counts bytes,
not runes. -/
def utf8Len (s : Str) : Nat := s.foldl (fun n c => n + c.utf8Size) 0

/-- The `default` branch: keys whose string form is a single byte extend
the query while searching (`len(msg.String()) == 1` is a byte-length
test, so multi-byte runes are ignored). -/
def keyDefault (m : Model) (k : Str) : Model :=
  if m.searchMode ∧ m.confirmMode = false ∧ utf8Len k = 1 then
    filterPRs { m with query := m.query ++ k }
  else m

/-- The key switch of `Update`, after message clearing. -/
def handleKey (browserOk : Bool) (m : Model) (k : Str) : Model :=
  if k = str "ctrl+c" then keyCtrlC m
  else if k = str "q" ∨ k = str "esc" then keyQEsc m
  else if k = str "/" then keySlash m
  else if k = str "r" then keyR m
  else if k = str "o" then keyO browserOk m
  else if k = str "enter" ∨ k = str "y" then keyEnterY m
  else if k = str "n" then keyN m
  else if k = str "up" ∨ k = str "k" then keyUp m
  else if k = str "down" ∨ k = str "j" then keyDown m
  else if k = str "backspace" then keyBackspace m
  else keyDefault m k

/-- Go `model.Update` (second variant of tui.go), as the state part of the
`(tea.Model, tea.Cmd)` pair. -/
def Update (browserOk : Bool) (m : Model) (msg : Msg) : Model :=
  match msg with
  | .windowSize w h => { m with width := w, height := h }
  | .mergeResult success message => handleMergeResult m success message
  | .rebaseResult success message =>
    { m with
      rebasing := false, message := message,
      messageType := if success then str "success" else str "error" }
  | .refreshPRs prs err => handleRefreshResult m prs err
  | .key k => handleKey browserOk (clearMsgOnKey m) k

/-- Result value of `mergePR`'s command (`mergeResultMsg`). -/
structure MergeResultMsg where
  success : Bool
  message : Str
deriving DecidableEq

/-- Go `model.mergePR` as an asynchronous command.  `remote` is what the
`MergePullRequest` HTTP call would return; the second component records
whether that remote call was issued at all. -/
def mergePR (pr : PullRequest) (remote : Except Str MergeResponse) : MergeResultMsg × Bool :=
  if pr.MergeableState = MergeableStateConflicting then
    ({ success := false,
       message := str "PR #" ++ natStr pr.Number ++ str " has conflicts and cannot be merged" },
     false)
  else
    match ParseRepository pr.Repository with
    | .error e => ({ success := false, message := str "Invalid repository format: " ++ e }, false)
    | .ok _ =>
      match remote with
      | .error e => ({ success := false, message := str "Merge failed: " ++ e }, true)
      | .ok resp =>
        if resp.Merged then
          ({ success := true,
             message := str "Successfully merged PR #" ++ natStr pr.Number ++ str " in " ++
               pr.Repository }, true)
        else
          ({ success := false, message := str "Merge unsuccessful: " ++ resp.Message }, true)

/-! ## Poll Controller (spec §4.4)

No poll controller exists anywhere in the source tree: after a mutating
action the TUI only fires a one-shot refresh.  The state machine below is
therefore modelled from the specification alone. -/

/-- Modelled from the spec: the per-target poll states of §4.4,
`Idle` and `Scheduled(attempt)` (the due time is determined by the
attempt's backoff delay). -/
inductive PollState where
  | idle
  | scheduled (attempt : Nat)
deriving DecidableEq

/-- Modelled from the spec: the status sampled on a poll tick — the
target's CI rollup and mergeable classification. -/
structure PollObs where
  ci : CheckStatus
  mergeable : MergeableState
deriving DecidableEq

/-- Modelled from the spec: the terminal condition of §4.4 — CI status not
pending AND mergeable classification not unknown. -/
def pollTerminal (o : PollObs) : Bool :=
  o.ci ≠ StatusPending ∧ o.mergeable ≠ MergeableStateUnknown

/-- Modelled from the spec: the backoff delay before the tick of a given
attempt — doubling from the initial delay `d`, capped at `cap`. -/
def pollDelay (d cap : Nat) (attempt : Nat) : Nat := min (d * 2 ^ attempt) cap

/-- Modelled from the spec: one scheduled tick of the poll for a target,
with attempt cap `maxAttempts`.  A terminal observation ends the poll;
otherwise the next tick is scheduled while attempts remain, and the poll
falls back to `Idle` once they are exhausted. -/
def pollStep (maxAttempts : Nat) (st : PollState) (o : PollObs) : PollState :=
  match st with
  | .idle => .idle
  | .scheduled attempt =>
    if pollTerminal o then .idle
    else if attempt + 1 < maxAttempts then .scheduled (attempt + 1)
    else .idle

/-- The initial model built by `RunTUI`. -/
def initModel (prs : List PullRequest) : Model :=
  { prs := prs, filtered := prs, cursor := 0, query := [], searchMode := false,
    confirmMode := false, confirmingPR := none, confirmRebase := false, target := [],
    isOrganization := false, limit := 0, verbose := false, message := [], messageType := [],
    width := 80, height := 24, merging := false, refreshing := false, rebasing := false,
    done := false }

instance {ε α : Type} [DecidableEq ε] [DecidableEq α] : DecidableEq (Except ε α) :=
  fun a b =>
    match a, b with
    | .error e, .error f =>
      if h : e = f then .isTrue (by rw [h]) else .isFalse (by simp [h])
    | .error _, .ok _ => .isFalse (by simp)
    | .ok _, .error _ => .isFalse (by simp)
    | .ok x, .ok y =>
      if h : x = y then .isTrue (by rw [h]) else .isFalse (by simp [h])

/-! ## Shared concrete items used by witnesses and counterexamples -/

/-- A minimal pull request for concrete evaluations. -/
def mkPR (repo : Str) (num : Nat) (title : Str) : PullRequest :=
  { Repository := repo, Number := num, Title := title, Body := [], Author := [],
    CreatedAt := 0, URL := [], HeadSHA := [], BotType := BotRenovate,
    CheckSummary := { Status := StatusNone, Total := 0 }, Version := [],
    MergeableState := MergeableStateMergeable, Labels := [] }

def prA : PullRequest := mkPR (str "o/a") 1 (str "alpha")

def prB : PullRequest := mkPR (str "o/b") 2 (str "beta")

/-! ## Lemmas about the string primitives -/

theorem splitChar_ne_nil (sep : Char) (s : Str) : splitChar sep s ≠ [] := by
  induction s with
  | nil => simp [splitChar]
  | cons c cs ih =>
    unfold splitChar
    by_cases hc : c = sep
    · simp [hc]
    · simp only [hc, if_false]
      cases h : splitChar sep cs with
      | nil => simp
      | cons a t => simp

theorem joinChar_splitChar (sep : Char) (s : Str) : joinChar sep (splitChar sep s) = s := by
  induction s with
  | nil => simp [splitChar, joinChar]
  | cons c cs ih =>
    unfold splitChar
    by_cases hc : c = sep
    · simp only [hc, if_true, eq_self_iff_true]
      cases h : splitChar sep cs with
      | nil => exact absurd h (splitChar_ne_nil sep cs)
      | cons a t =>
        rw [h] at ih
        cases t with
        | nil => simp [joinChar] at ih ⊢; simp [ih]
        | cons b t2 => simp only [joinChar] at ih ⊢; simp [ih]
    · simp only [hc, if_false]
      cases h : splitChar sep cs with
      | nil => exact absurd h (splitChar_ne_nil sep cs)
      | cons a t =>
        rw [h] at ih
        cases t with
        | nil => simpa [joinChar] using congrArg (c :: ·) ih
        | cons b t2 => simp only [joinChar] at ih ⊢; simp [ih]

theorem begins_iff (p s : Str) : begins p s = true ↔ ∃ t, s = p ++ t := by
  induction p generalizing s with
  | nil => simp [begins]
  | cons a p ih =>
    cases s with
    | nil => simp [begins]
    | cons b s =>
      simp only [begins, Bool.and_eq_true, beq_iff_eq, ih, List.cons_append, List.cons.injEq]
      constructor
      · rintro ⟨rfl, t, rfl⟩; exact ⟨t, rfl, rfl⟩
      · rintro ⟨t, rfl, rfl⟩; exact ⟨rfl, t, rfl⟩

theorem containsStr_iff (s sub : Str) : containsStr s sub = true ↔ ∃ a b, s = a ++ sub ++ b := by
  induction s with
  | nil =>
    simp only [containsStr, Bool.or_false, begins_iff]
    constructor
    · rintro ⟨t, ht⟩
      exact ⟨[], t, by simpa using ht⟩
    · rintro ⟨a, b, h⟩
      rcases List.append_eq_nil.mp h.symm with ⟨ha, hb⟩
      rcases List.append_eq_nil.mp ha with ⟨ha2, hsub⟩
      exact ⟨[], by simp [hsub]⟩
  | cons c t ih =>
    simp only [containsStr, Bool.or_eq_true, begins_iff, ih]
    constructor
    · rintro (⟨u, hu⟩ | ⟨a, b, h⟩)
      · exact ⟨[], u, by simpa using hu⟩
      · exact ⟨c :: a, b, by simp [h]⟩
    · rintro ⟨a, b, h⟩
      cases a with
      | nil => exact Or.inl ⟨b, by simpa using h⟩
      | cons x a2 =>
        right
        refine ⟨a2, b, ?_⟩
        simpa using congrArg List.tail h

theorem containsStr_of_append (s q r : Str) (h : containsStr s (q ++ r) = true) :
    containsStr s q = true := by
  rcases (containsStr_iff s (q ++ r)).mp h with ⟨a, b, hab⟩
  exact (containsStr_iff s q).mpr ⟨a, r ++ b, by simp [hab]⟩

/-! C10 — ParseRepository -/

/-- C10: `ParseRepository` fails exactly when splitting the input on `/`
does not give two parts; on success the two parts rejoined with `/` give
back the input, and either part may be empty (`"owner/"` parses with an
empty repo name, while `"owner/repo/extra"` and `"plainname"` fail). -/
theorem spec_C10_parse_repository :
    (∀ s : Str, (∃ e, ParseRepository s = Except.error e) ↔ (splitChar '/' s).length ≠ 2) ∧
    (∀ s o r, ParseRepository s = Except.ok (o, r) → o ++ '/' :: r = s) ∧
    ParseRepository (str "owner/") = Except.ok (str "owner", []) ∧
    (∃ e, ParseRepository (str "owner/repo/extra") = Except.error e) ∧
    (∃ e, ParseRepository (str "plainname") = Except.error e) := by
  refine ⟨?_, ?_, by decide,
    ⟨str "invalid repository format: owner/repo/extra (expected owner/repo)", by decide⟩,
    ⟨str "invalid repository format: plainname (expected owner/repo)", by decide⟩⟩
  · intro s
    unfold ParseRepository
    by_cases h : (splitChar '/' s).length = 2 <;> simp [h]
  · intro s o r h
    unfold ParseRepository at h
    by_cases hl : (splitChar '/' s).length = 2
    · simp only [hl, ne_eq, not_true_eq_false, if_false] at h
      rcases List.length_eq_two.mp hl with ⟨a, b, hab⟩
      rw [hab] at h
      simp only [List.getD, Except.ok.injEq, Prod.mk.injEq] at h
      have := joinChar_splitChar '/' s
      rw [hab] at this
      simp only [joinChar] at this
      simp at h
      rw [← h.1, ← h.2]
      exact this
    · simp [hl] at h

/-- Witness for C10 at the concrete input `a/b`. -/
theorem spec_C10_parse_repository_witness : str "a" ++ '/' :: str "b" = str "a/b" :=
  spec_C10_parse_repository.2.1 (str "a/b") (str "a") (str "b") (by decide)

/-! C9 — AggregateCheckStatus -/

theorem aggStep_foldl (checks : List CheckRun) (b1 b2 : Bool) :
    checks.foldl aggStep (b1, b2) =
      (b1 || checks.any (fun c => checkCompleted c && !passingConclusion c),
       b2 || checks.any (fun c => !checkCompleted c)) := by
  induction checks generalizing b1 b2 with
  | nil => simp
  | cons c t ih =>
    simp only [List.foldl_cons, List.any_cons]
    rw [show aggStep (b1, b2) c =
        (b1 || (checkCompleted c && !passingConclusion c), b2 || !checkCompleted c) by
      unfold aggStep
      cases hc : checkCompleted c <;> cases hp : passingConclusion c <;> simp [hc, hp]]
    rw [ih]
    simp [Bool.or_assoc]

/-- C9: for a non-empty list of check runs, one completed check with a
conclusion outside `{success, neutral, skipped}` forces `StatusFailure`
(failure dominates pending); `StatusPending` arises only when no completed
check failed and some check is not completed; the empty list gives
`StatusNone`. -/
theorem spec_C9_aggregate_check_status :
    (∀ checks : List CheckRun,
      (∃ c ∈ checks, checkCompleted c = true ∧ passingConclusion c = false) →
      (AggregateCheckStatus checks).Status = StatusFailure) ∧
    (∀ checks : List CheckRun, (AggregateCheckStatus checks).Status = StatusPending →
      (∀ c ∈ checks, checkCompleted c = true → passingConclusion c = true) ∧
      ∃ c ∈ checks, checkCompleted c = false) ∧
    AggregateCheckStatus [] = { Status := StatusNone, Total := 0 } := by
  refine ⟨?_, ?_, by simp [AggregateCheckStatus]⟩
  · rintro checks ⟨c, hc, hcomp, hpass⟩
    have hne : checks ≠ [] := by rintro rfl; exact absurd hc (List.not_mem_nil c)
    unfold AggregateCheckStatus
    simp only [hne, if_false]
    have hany : checks.any (fun c => checkCompleted c && !passingConclusion c) = true :=
      List.any_eq_true.mpr ⟨c, hc, by simp [hcomp, hpass]⟩
    rw [aggStep_foldl]
    simp [hany]
  · intro checks h
    by_cases hne : checks = []
    · rw [hne] at h
      simp only [AggregateCheckStatus, if_pos rfl] at h
      exact absurd h (by decide)
    · unfold AggregateCheckStatus at h
      simp only [hne, if_false] at h
      rw [aggStep_foldl] at h
      simp only [Bool.false_or] at h
      by_cases hf : checks.any (fun c => checkCompleted c && !passingConclusion c) = true
      · rw [if_pos hf] at h
        exact absurd h (by decide)
      · rw [if_neg hf] at h
        by_cases hp : checks.any (fun c => !checkCompleted c) = true
        · refine ⟨?_, ?_⟩
          · intro c hc hcomp
            by_contra hpass
            exact hf (List.any_eq_true.mpr ⟨c, hc, by simp [hcomp, hpass]⟩)
          · rcases List.any_eq_true.mp hp with ⟨c, hc, hcn⟩
            exact ⟨c, hc, by simpa using hcn⟩
        · rw [if_neg hp] at h
          exact absurd h (by decide)

/-- Witness for C9: a failed completed check next to a queued one yields
failure, and a pending aggregate implies an incomplete check. -/
theorem spec_C9_aggregate_check_status_witness :
    (AggregateCheckStatus
      [{ Name := str "a", Status := str "completed", Conclusion := str "timed_out" },
       { Name := str "b", Status := str "queued", Conclusion := [] }]).Status = StatusFailure ∧
    ((∀ c ∈ [{ Name := str "b", Status := str "queued", Conclusion := [] }],
        checkCompleted c = true → passingConclusion c = true) ∧
      ∃ c ∈ [{ Name := str "b", Status := str "queued", Conclusion := [] }],
        checkCompleted c = false) :=
  ⟨spec_C9_aggregate_check_status.1 _
      ⟨{ Name := str "a", Status := str "completed", Conclusion := str "timed_out" },
        by decide, by decide, by decide⟩,
    spec_C9_aggregate_check_status.2.1 _ (by decide)⟩

/-! C7 — monotone narrowing of the filter -/

/-- C7: extending the query only narrows the visible list (a prefix query
q1 of q2 keeps every q2-match), the filtered list is an order-preserving
subsequence of the full list, and `filterPRs` computes exactly this
visible list. -/
theorem spec_C7_filter_monotone :
    (∀ (prs : List PullRequest) (q1 q2 : Str), (∃ r, q2 = q1 ++ r) →
      ∀ pr ∈ visibleList prs q2, pr ∈ visibleList prs q1) ∧
    (∀ (prs : List PullRequest) (q : Str), List.Sublist (visibleList prs q) prs) ∧
    (∀ m : Model, (filterPRs m).filtered = visibleList m.prs m.query) := by
  refine ⟨?_, ?_, ?_⟩
  · rintro prs q1 q2 ⟨r, rfl⟩ pr hpr
    by_cases h1 : q1 = []
    · subst h1
      simp only [visibleList, if_pos rfl]
      by_cases h2 : (List.nil ++ r : Str) = []
      · rw [visibleList, if_pos h2] at hpr
        exact hpr
      · rw [visibleList, if_neg h2] at hpr
        exact List.mem_of_mem_filter hpr
    · have h2 : q1 ++ r ≠ [] := by
        intro h
        exact h1 (List.append_eq_nil.mp h).1
      rw [visibleList, if_neg h2] at hpr
      rcases List.mem_filter.mp hpr with ⟨hmem, hmatch⟩
      rw [visibleList, if_neg h1]
      refine List.mem_filter.mpr ⟨hmem, ?_⟩
      have : toLowerStr (q1 ++ r) = toLowerStr q1 ++ toLowerStr r := by
        simp [toLowerStr]
      rw [this] at hmatch
      exact containsStr_of_append _ _ _ hmatch
  · intro prs q
    unfold visibleList
    by_cases h : q = []
    · simp [h]
    · simp only [h, if_false]
      exact List.filter_sublist prs
  · intro m
    unfold filterPRs visibleList
    by_cases h : m.query = [] <;> simp [h]

/-- Witness for C7: with the one-item list `[prA]` and queries `a` and
`al`, the `al`-match is also an `a`-match. -/
theorem spec_C7_filter_monotone_witness : prA ∈ visibleList [prA] (str "a") :=
  spec_C7_filter_monotone.1 [prA] (str "a") (str "al") ⟨str "l", rfl⟩ prA (by decide)

/-! C5 — refresh failure leaves the lists untouched -/

/-- C5: a refresh completion carrying an error changes neither the full
list, the visible list, the cursor, the query nor the modes; it only drops
the refreshing flag and surfaces an error-tagged status message. -/
theorem spec_C5_refresh_error_atomic (browserOk : Bool) (m : Model)
    (prs : List PullRequest) (e : Str) :
    (Update browserOk m (Msg.refreshPRs prs (some e))).prs = m.prs ∧
    (Update browserOk m (Msg.refreshPRs prs (some e))).filtered = m.filtered ∧
    (Update browserOk m (Msg.refreshPRs prs (some e))).cursor = m.cursor ∧
    (Update browserOk m (Msg.refreshPRs prs (some e))).query = m.query ∧
    (Update browserOk m (Msg.refreshPRs prs (some e))).searchMode = m.searchMode ∧
    (Update browserOk m (Msg.refreshPRs prs (some e))).confirmMode = m.confirmMode ∧
    (Update browserOk m (Msg.refreshPRs prs (some e))).merging = m.merging ∧
    (Update browserOk m (Msg.refreshPRs prs (some e))).refreshing = false ∧
    (Update browserOk m (Msg.refreshPRs prs (some e))).messageType = str "error" ∧
    (Update browserOk m (Msg.refreshPRs prs (some e))).message =
      str "Failed to refresh PRs: " ++ e := by
  simp [Update, handleRefreshResult]

/-! C3 — conflicting merges are rejected locally -/

/-- C3: dispatching a merge on a `CONFLICTING` pull request never issues
the remote merge call, always yields a failure event, and processing that
event leaves the lists and cursor in place with an error-tagged message. -/
theorem spec_C3_conflicting_merge_rejected (pr : PullRequest)
    (remote : Except Str MergeResponse) (browserOk : Bool) (m : Model)
    (h : pr.MergeableState = MergeableStateConflicting) :
    (mergePR pr remote).2 = false ∧
    (mergePR pr remote).1.success = false ∧
    (Update browserOk m
      (Msg.mergeResult (mergePR pr remote).1.success (mergePR pr remote).1.message)).prs =
        m.prs ∧
    (Update browserOk m
      (Msg.mergeResult (mergePR pr remote).1.success (mergePR pr remote).1.message)).filtered =
        m.filtered ∧
    (Update browserOk m
      (Msg.mergeResult (mergePR pr remote).1.success (mergePR pr remote).1.message)).cursor =
        m.cursor ∧
    (Update browserOk m
      (Msg.mergeResult (mergePR pr remote).1.success (mergePR pr remote).1.message)).messageType =
        str "error" := by
  have hm : mergePR pr remote =
      ({ success := false,
         message := str "PR #" ++ natStr pr.Number ++ str " has conflicts and cannot be merged" },
       false) := by
    unfold mergePR
    rw [if_pos h]
  rw [hm]
  simp [Update, handleMergeResult]

/-- Witness for C3 at a concrete conflicting pull request. -/
theorem spec_C3_conflicting_merge_rejected_witness :
    (mergePR { prA with MergeableState := MergeableStateConflicting }
      (Except.ok { SHA := [], Merged := true, Message := [] })).2 = false ∧
    (mergePR { prA with MergeableState := MergeableStateConflicting }
      (Except.ok { SHA := [], Merged := true, Message := [] })).1.success = false :=
  have h := spec_C3_conflicting_merge_rejected
    { prA with MergeableState := MergeableStateConflicting }
    (Except.ok { SHA := [], Merged := true, Message := [] }) true (initModel [prA]) (by decide)
  ⟨h.1, h.2.1⟩

/-! C1 — the cursor invariant -/

/-- The cursor invariant: a valid index into a non-empty visible list,
`0` otherwise. -/
def CursorInv (m : Model) : Prop :=
  (m.filtered = [] → m.cursor = 0) ∧
  (m.filtered ≠ [] → 0 ≤ m.cursor ∧ m.cursor < (m.filtered.length : Int))

/-- Arithmetic form of the invariant, for `omega`. -/
def cursorOK (c : Int) (n : Nat) : Prop :=
  0 ≤ c ∧ (c < (n : Int) ∨ (n = 0 ∧ c = 0))

theorem cursorInv_iff (m : Model) : CursorInv m ↔ cursorOK m.cursor m.filtered.length := by
  unfold CursorInv cursorOK
  constructor
  · rintro ⟨h1, h2⟩
    by_cases h : m.filtered = []
    · have h0 := h1 h
      exact ⟨by omega, Or.inr ⟨by simp [h], h0⟩⟩
    · rcases h2 h with ⟨a, b⟩
      exact ⟨a, Or.inl b⟩
  · rintro ⟨h1, h2⟩
    constructor
    · intro h
      rcases h2 with hlt | ⟨hn, hc⟩
      · rw [h] at hlt
        simp at hlt
        omega
      · exact hc
    · intro h
      have hp : 0 < m.filtered.length := List.length_pos.mpr h
      rcases h2 with hlt | ⟨hn, hc⟩
      · exact ⟨h1, hlt⟩
      · omega

theorem cursorInv_nonneg {m : Model} (h : CursorInv m) : 0 ≤ m.cursor :=
  ((cursorInv_iff m).mp h).1

theorem cursorInv_filterPRs (m : Model) (h : 0 ≤ m.cursor) : CursorInv (filterPRs m) := by
  rw [cursorInv_iff]
  unfold filterPRs cursorOK
  by_cases hq : m.query = []
  · simp [hq]
    cases m.prs <;> simp
  · simp [hq]
    split_ifs <;> simp only [← List.length_eq_zero] <;> omega

theorem cursorInv_handleMergeResult (m : Model) (h : CursorInv m) (s : Bool) (msg : Str) :
    CursorInv (handleMergeResult m s msg) := by
  rw [cursorInv_iff] at h
  unfold cursorOK at h
  rw [cursorInv_iff]
  unfold handleMergeResult cursorOK
  cases s with
  | false => simpa using h
  | true =>
    by_cases hc : m.cursor < (m.filtered.length : Int)
    · have ht : (m.cursor.toNat : Int) = m.cursor := Int.toNat_of_nonneg h.1
      have hi : m.cursor.toNat < m.filtered.length := by omega
      simp [hc]
      split_ifs <;>
        (try simp only [← List.length_eq_zero, List.length_append, List.length_take,
          List.length_drop]) <;>
        omega
    · simp [hc]
      simp only [← List.length_eq_zero]
      omega

theorem cursorInv_handleRefreshResult (m : Model) (h : CursorInv m)
    (prs : List PullRequest) (err : Option Str) :
    CursorInv (handleRefreshResult m prs err) := by
  unfold handleRefreshResult
  cases err with
  | some e =>
    rw [cursorInv_iff] at h ⊢
    simpa using h
  | none =>
    have h2 := cursorInv_filterPRs { m with refreshing := false, prs := sortByRepo prs }
      (by simpa using cursorInv_nonneg h)
    rw [cursorInv_iff] at h2 ⊢
    unfold cursorOK at h2 ⊢
    simp
    split_ifs <;> (try simp only [← List.length_eq_zero] at h2 ⊢) <;> omega

theorem cursorInv_clearMsgOnKey (m : Model) (h : CursorInv m) : CursorInv (clearMsgOnKey m) := by
  unfold clearMsgOnKey
  split_ifs with h1
  · rw [cursorInv_iff] at h ⊢
    simpa using h
  · exact h

theorem cursorInv_keyQEsc (m : Model) (h : CursorInv m) : CursorInv (keyQEsc m) := by
  have h0 := cursorInv_nonneg h
  rw [cursorInv_iff] at h ⊢
  unfold keyQEsc
  split_ifs <;> (try dsimp only)
  · exact h
  · exact (cursorInv_iff _).mp (cursorInv_filterPRs _ (by dsimp only; exact h0))
  · exact h

theorem cursorInv_keyO (browserOk : Bool) (m : Model) (h : CursorInv m) :
    CursorInv (keyO browserOk m) := by
  rw [cursorInv_iff] at h ⊢
  unfold keyO
  split_ifs <;> (try dsimp only) <;> exact h

theorem cursorInv_keyEnterY (m : Model) (h : CursorInv m) : CursorInv (keyEnterY m) := by
  rw [cursorInv_iff] at h ⊢
  unfold keyEnterY
  split_ifs <;> (try dsimp only) <;> (try split_ifs) <;> (try dsimp only) <;> exact h

theorem cursorInv_keyUp (m : Model) (h : CursorInv m) : CursorInv (keyUp m) := by
  rw [cursorInv_iff] at h
  unfold cursorOK at h
  rw [cursorInv_iff]
  unfold keyUp cursorOK
  split_ifs <;> (try dsimp only) <;> omega

theorem cursorInv_keyDown (m : Model) (h : CursorInv m) : CursorInv (keyDown m) := by
  rw [cursorInv_iff] at h
  unfold cursorOK at h
  rw [cursorInv_iff]
  unfold keyDown cursorOK
  split_ifs <;> (try dsimp only) <;> omega

theorem cursorInv_keyCtrlC (m : Model) (h : CursorInv m) : CursorInv (keyCtrlC m) := by
  rw [cursorInv_iff] at h ⊢
  unfold keyCtrlC
  dsimp only
  exact h

theorem cursorInv_keySlash (m : Model) (h : CursorInv m) : CursorInv (keySlash m) := by
  rw [cursorInv_iff] at h ⊢
  unfold keySlash
  split_ifs <;> (try dsimp only) <;> exact h

theorem cursorInv_keyR (m : Model) (h : CursorInv m) : CursorInv (keyR m) := by
  rw [cursorInv_iff] at h ⊢
  unfold keyR
  split_ifs <;> (try dsimp only) <;> exact h

theorem cursorInv_keyN (m : Model) (h : CursorInv m) : CursorInv (keyN m) := by
  rw [cursorInv_iff] at h ⊢
  unfold keyN
  split_ifs <;> (try dsimp only) <;> exact h

theorem cursorInv_keyBackspace (m : Model) (h : CursorInv m) : CursorInv (keyBackspace m) := by
  unfold keyBackspace
  split_ifs
  · exact cursorInv_filterPRs _ (by dsimp only; exact cursorInv_nonneg h)
  · exact h

theorem cursorInv_keyDefault (m : Model) (k : Str) (h : CursorInv m) :
    CursorInv (keyDefault m k) := by
  unfold keyDefault
  split_ifs
  · exact cursorInv_filterPRs _ (by dsimp only; exact cursorInv_nonneg h)
  · exact h

theorem cursorInv_handleKey (browserOk : Bool) (m : Model) (k : Str) (h : CursorInv m) :
    CursorInv (handleKey browserOk m k) := by
  unfold handleKey
  by_cases h1 : k = str "ctrl+c"
  · rw [if_pos h1]; exact cursorInv_keyCtrlC m h
  rw [if_neg h1]
  by_cases h2 : k = str "q" ∨ k = str "esc"
  · rw [if_pos h2]; exact cursorInv_keyQEsc m h
  rw [if_neg h2]
  by_cases h3 : k = str "/"
  · rw [if_pos h3]; exact cursorInv_keySlash m h
  rw [if_neg h3]
  by_cases h4 : k = str "r"
  · rw [if_pos h4]; exact cursorInv_keyR m h
  rw [if_neg h4]
  by_cases h5 : k = str "o"
  · rw [if_pos h5]; exact cursorInv_keyO browserOk m h
  rw [if_neg h5]
  by_cases h6 : k = str "enter" ∨ k = str "y"
  · rw [if_pos h6]; exact cursorInv_keyEnterY m h
  rw [if_neg h6]
  by_cases h7 : k = str "n"
  · rw [if_pos h7]; exact cursorInv_keyN m h
  rw [if_neg h7]
  by_cases h8 : k = str "up" ∨ k = str "k"
  · rw [if_pos h8]; exact cursorInv_keyUp m h
  rw [if_neg h8]
  by_cases h9 : k = str "down" ∨ k = str "j"
  · rw [if_pos h9]; exact cursorInv_keyDown m h
  rw [if_neg h9]
  by_cases h10 : k = str "backspace"
  · rw [if_pos h10]; exact cursorInv_keyBackspace m h
  rw [if_neg h10]
  exact cursorInv_keyDefault m k h

theorem cursorInv_Update (browserOk : Bool) (m : Model) (msg : Msg) (h : CursorInv m) :
    CursorInv (Update browserOk m msg) := by
  cases msg with
  | windowSize w hh =>
    rw [cursorInv_iff] at h ⊢
    simpa [Update] using h
  | mergeResult s msg => exact cursorInv_handleMergeResult m h s msg
  | rebaseResult s msg =>
    rw [cursorInv_iff] at h ⊢
    simpa [Update] using h
  | refreshPRs prs err => exact cursorInv_handleRefreshResult m h prs err
  | key k => exact cursorInv_handleKey browserOk (clearMsgOnKey m) k (cursorInv_clearMsgOnKey m h)

/-- C1: from any state with `0 ≤ cursor < max 1 len(filtered)`, any
sequence of messages — cursor moves, query edits, refresh completions,
merge removals and everything else `Update` consumes — keeps the cursor a
valid index of the non-empty visible list, and pinned to `0` when the
visible list is empty. -/
theorem spec_C1_cursor_invariant (browserOk : Bool) (m : Model) (msgs : List Msg)
    (h : 0 ≤ m.cursor ∧ m.cursor < max 1 (m.filtered.length : Int)) :
    ((msgs.foldl (Update browserOk) m).filtered ≠ [] →
      0 ≤ (msgs.foldl (Update browserOk) m).cursor ∧
      (msgs.foldl (Update browserOk) m).cursor <
        ((msgs.foldl (Update browserOk) m).filtered.length : Int)) ∧
    ((msgs.foldl (Update browserOk) m).filtered = [] →
      (msgs.foldl (Update browserOk) m).cursor = 0) := by
  have hInv : CursorInv m := by
    rw [cursorInv_iff]
    unfold cursorOK
    rcases h with ⟨h1, h2⟩
    rcases le_or_lt ((m.filtered.length : Int)) 1 with hl | hl <;> omega
  have hAll : ∀ m0 : Model, CursorInv m0 → CursorInv (msgs.foldl (Update browserOk) m0) := by
    induction msgs with
    | nil => exact fun m0 hm => hm
    | cons a t ih =>
      exact fun m0 hm => ih (Update browserOk m0 a) (cursorInv_Update browserOk m0 a hm)
  have hFin := hAll m hInv
  exact ⟨hFin.2, hFin.1⟩

/-- Witness for C1: a concrete run mixing navigation, search edits, a
merge removal and a refresh. -/
theorem spec_C1_cursor_invariant_witness :
    (0 ≤ (initModel [prA, prB]).cursor ∧
      (initModel [prA, prB]).cursor < max 1 ((initModel [prA, prB]).filtered.length : Int)) ∧
    (let m2 := [Msg.key (str "down"), Msg.key (str "/"), Msg.key (str "a"),
        Msg.mergeResult true (str "done"), Msg.refreshPRs [] none].foldl (Update true)
        (initModel [prA, prB]);
      (m2.filtered ≠ [] → 0 ≤ m2.cursor ∧ m2.cursor < (m2.filtered.length : Int)) ∧
      (m2.filtered = [] → m2.cursor = 0)) :=
  ⟨by decide,
    spec_C1_cursor_invariant true (initModel [prA, prB])
      [Msg.key (str "down"), Msg.key (str "/"), Msg.key (str "a"),
        Msg.mergeResult true (str "done"), Msg.refreshPRs [] none] (by decide)⟩

/-! C2 — what a successful merge completion actually removes.

The completion event (`mergeResultMsg`) carries only a success bit and a
message; it does not carry the merged pull request's identity.  The handler
removes whatever sits under the cursor when the event arrives.  If the
cursor moved while the merge was in flight, the wrong item is removed: the
pull request the event reports as merged stays in both lists. -/

/-- C2, evaluated at the failing input: the merge was dispatched on `prA`
(its completion event reports `prA` merged) while the cursor has moved to
`prB`; processing the event removes `prB` from both lists and keeps `prA`. -/
theorem spec_C2_merge_removal_wrong_item :
    ((mergePR prA (Except.ok { SHA := [], Merged := true, Message := [] })).1.success = true ∧
      (mergePR prA (Except.ok { SHA := [], Merged := true, Message := [] })).1.message =
        str "Successfully merged PR #1 in o/a") ∧
    (Update true { initModel [prA, prB] with cursor := 1, merging := true }
      (Msg.mergeResult
        (mergePR prA (Except.ok { SHA := [], Merged := true, Message := [] })).1.success
        (mergePR prA (Except.ok { SHA := [], Merged := true, Message := [] })).1.message)).filtered
      = [prA] ∧
    (Update true { initModel [prA, prB] with cursor := 1, merging := true }
      (Msg.mergeResult
        (mergePR prA (Except.ok { SHA := [], Merged := true, Message := [] })).1.success
        (mergePR prA (Except.ok { SHA := [], Merged := true, Message := [] })).1.message)).prs
      = [prA] := by
  decide

/-! C6 — key handling in Search mode -/

/-- C6 counterexample: in Search mode with query `ab`, pressing the
printable key `k` appends nothing (the claim demands query `abk`); the
key is swallowed by the `up`/`k` navigation case, which is inert while
searching. -/
theorem spec_C6_counterexample :
    ({ initModel [prA, prB] with searchMode := true, query := str "ab" } : Model).searchMode
        = true ∧
    ({ initModel [prA, prB] with searchMode := true, query := str "ab" } : Model).confirmMode
        = false ∧
    (Update true { initModel [prA, prB] with searchMode := true, query := str "ab" }
        (Msg.key (str "k"))).query ≠ str "ab" ++ str "k" ∧
    (Update true { initModel [prA, prB] with searchMode := true, query := str "ab" }
        (Msg.key (str "k"))).query = str "ab" := by
  decide

theorem filterPRs_query (m : Model) : (filterPRs m).query = m.query := by
  unfold filterPRs
  split_ifs <;> rfl

theorem filterPRs_searchMode (m : Model) : (filterPRs m).searchMode = m.searchMode := by
  unfold filterPRs
  split_ifs <;> rfl

theorem filterPRs_filtered (m : Model) : (filterPRs m).filtered = visibleList m.prs m.query := by
  unfold filterPRs visibleList
  split_ifs <;> rfl

theorem clearMsgOnKey_core (m : Model) :
    (clearMsgOnKey m).prs = m.prs ∧ (clearMsgOnKey m).filtered = m.filtered ∧
    (clearMsgOnKey m).cursor = m.cursor ∧ (clearMsgOnKey m).query = m.query ∧
    (clearMsgOnKey m).searchMode = m.searchMode ∧
    (clearMsgOnKey m).confirmMode = m.confirmMode ∧
    (clearMsgOnKey m).merging = m.merging ∧ (clearMsgOnKey m).rebasing = m.rebasing := by
  unfold clearMsgOnKey
  split_ifs <;> simp

theorem singleton_ne_of_length (c : Char) (s : Str) (h : s.length ≠ 1) : [c] ≠ s := by
  intro he
  rw [← he] at h
  simp at h

/-- A single-character key outside the reserved hotkeys falls through the
whole switch to the `default` branch. -/
theorem handleKey_singleChar (browserOk : Bool) (m : Model) (c : Char)
    (hres : c ∉ (['q', 'y', 'n', 'k', 'j', 'r', 'o', '/'] : List Char)) :
    handleKey browserOk m [c] = keyDefault m [c] := by
  simp only [not_or, List.mem_cons, List.mem_singleton] at hres
  push_neg at hres
  obtain ⟨hq, hy, hn, hk, hj, hr, ho, hsl⟩ := hres
  unfold handleKey
  rw [if_neg (singleton_ne_of_length c _ (by decide)),
    if_neg (not_or.mpr ⟨by simp [str, hq], singleton_ne_of_length c _ (by decide)⟩),
    if_neg (by simp [str, hsl]),
    if_neg (by simp [str, hr]),
    if_neg (by simp [str, ho]),
    if_neg (not_or.mpr ⟨singleton_ne_of_length c _ (by decide), by simp [str, hy]⟩),
    if_neg (by simp [str, hn]),
    if_neg (not_or.mpr ⟨singleton_ne_of_length c _ (by decide), by simp [str, hk]⟩),
    if_neg (not_or.mpr ⟨singleton_ne_of_length c _ (by decide), by simp [str, hj]⟩),
    if_neg (singleton_ne_of_length c _ (by decide))]

/-- C6, amended: in Search mode every key whose string form is one byte
and which is not a reserved hotkey `q`, `y`, `n`, `k`, `j`, `r`, `o`, `/`
is appended to the query and the filter re-runs; a single multi-byte rune
is ignored (Go's guard counts bytes); backspace on a non-empty query drops
its last character and re-filters; escape clears the query and leaves
Search mode; enter leaves Search mode with the query intact. -/
theorem spec_C6_search_mode_keys (browserOk : Bool) (m : Model) (c : Char)
    (hs : m.searchMode = true) (hcm : m.confirmMode = false)
    (hres : c ∉ (['q', 'y', 'n', 'k', 'j', 'r', 'o', '/'] : List Char))
    (hsz : c.utf8Size = 1) :
    ((Update browserOk m (Msg.key [c])).query = m.query ++ [c] ∧
      (Update browserOk m (Msg.key [c])).filtered = visibleList m.prs (m.query ++ [c]) ∧
      (Update browserOk m (Msg.key [c])).searchMode = true) ∧
    (∀ c2 : Char, 1 < c2.utf8Size →
      (Update browserOk m (Msg.key [c2])).query = m.query ∧
      (Update browserOk m (Msg.key [c2])).filtered = m.filtered) ∧
    (m.query ≠ [] →
      (Update browserOk m (Msg.key (str "backspace"))).query = m.query.dropLast ∧
      (Update browserOk m (Msg.key (str "backspace"))).filtered =
        visibleList m.prs m.query.dropLast) ∧
    ((Update browserOk m (Msg.key (str "esc"))).query = [] ∧
      (Update browserOk m (Msg.key (str "esc"))).searchMode = false ∧
      (Update browserOk m (Msg.key (str "esc"))).filtered = m.prs) ∧
    ((Update browserOk m (Msg.key (str "enter"))).query = m.query ∧
      (Update browserOk m (Msg.key (str "enter"))).searchMode = false ∧
      (Update browserOk m (Msg.key (str "enter"))).filtered = m.filtered) := by
  obtain ⟨e1, e2, e3, e4, e5, e6, e7, e8⟩ := clearMsgOnKey_core m
  simp only [Update]
  refine ⟨?_, ?_, ?_, ?_, ?_⟩
  · rw [handleKey_singleChar browserOk _ c hres]
    unfold keyDefault
    rw [if_pos ⟨by rw [e5, hs], by rw [e6]; exact hcm, by simp [utf8Len, hsz]⟩]
    refine ⟨?_, ?_, ?_⟩
    · rw [filterPRs_query]
      dsimp only
      rw [e4]
    · rw [filterPRs_filtered]
      dsimp only
      rw [e1, e4]
    · rw [filterPRs_searchMode]
      dsimp only
      rw [e5, hs]
  · intro c2 hsz2
    have hres2 : c2 ∉ (['q', 'y', 'n', 'k', 'j', 'r', 'o', '/'] : List Char) := by
      intro hmem
      have h1 : c2.utf8Size = 1 := by
        simp only [List.mem_cons] at hmem
        rcases hmem with h | h | h | h | h | h | h | h | h <;>
          first
            | (subst h; decide)
            | exact absurd h (List.not_mem_nil c2)
      omega
    rw [handleKey_singleChar browserOk _ c2 hres2]
    unfold keyDefault
    rw [if_neg (by
      rintro ⟨-, -, h3⟩
      simp [utf8Len] at h3
      omega)]
    exact ⟨e4, e2⟩
  · intro hne
    unfold handleKey
    rw [if_neg (by decide), if_neg (by decide), if_neg (by decide), if_neg (by decide),
      if_neg (by decide), if_neg (by decide), if_neg (by decide), if_neg (by decide),
      if_neg (by decide), if_pos rfl]
    unfold keyBackspace
    rw [if_pos ⟨by rw [e5]; exact hs, by rw [e4]; exact List.length_pos.mpr hne⟩]
    constructor
    · rw [filterPRs_query]
      dsimp only
      rw [e4]
    · rw [filterPRs_filtered]
      dsimp only
      rw [e1, e4]
  · unfold handleKey
    rw [if_neg (by decide), if_pos (Or.inr rfl)]
    unfold keyQEsc
    rw [if_neg (by rw [e6, hcm]; exact Bool.false_ne_true), if_pos (by rw [e5]; exact hs)]
    refine ⟨?_, ?_, ?_⟩
    · rw [filterPRs_query]
    · rw [filterPRs_searchMode]
    · rw [filterPRs_filtered]
      dsimp only
      rw [e1]
      unfold visibleList
      rw [if_pos rfl]
  · unfold handleKey
    rw [if_neg (by decide), if_neg (by decide), if_neg (by decide), if_neg (by decide),
      if_neg (by decide), if_pos (Or.inl rfl)]
    unfold keyEnterY
    rw [if_neg (by rw [e6, hcm]; exact Bool.false_ne_true)]
    rw [if_pos (by rw [e5]; exact hs)]
    exact ⟨e4, rfl, e2⟩

/-- Witness for the amended C6 at a concrete searching state and the
printable key `z`. -/
theorem spec_C6_search_mode_keys_witness :
    (Update true { initModel [prA, prB] with searchMode := true, query := str "a" }
        (Msg.key ['z'])).query = str "a" ++ ['z'] ∧
    (Update true { initModel [prA, prB] with searchMode := true, query := str "a" }
        (Msg.key ['z'])).filtered = visibleList [prA, prB] (str "a" ++ ['z']) ∧
    (Update true { initModel [prA, prB] with searchMode := true, query := str "a" }
        (Msg.key ['z'])).searchMode = true :=
  (spec_C6_search_mode_keys true
    { initModel [prA, prB] with searchMode := true, query := str "a" } 'z' rfl rfl
    (by decide) (by decide)).1


/-! C8 — the Renovate rebase checkbox edit -/

theorem takeWhile_app (p : Char → Bool) (xs : Str) (y : Char) (ys : Str)
    (hx : ∀ x ∈ xs, p x = true) (hy : p y = false) :
    (xs ++ y :: ys).takeWhile p = xs ∧ (xs ++ y :: ys).dropWhile p = y :: ys := by
  induction xs with
  | nil => simp [List.takeWhile, List.dropWhile, hy]
  | cons a t ih =>
    have ha : p a = true := hx a (List.mem_cons_self a t)
    obtain ⟨ih1, ih2⟩ := ih (fun x hxm => hx x (List.mem_cons_of_mem a hxm))
    refine ⟨?_, ?_⟩
    · simp [List.takeWhile, ha, ih1]
    · simp [List.dropWhile, ha, ih2]

/-- The language of the per-line regex, stated as the claim reads it: the
line is `ws* '-' ws* '[' w ']' rest` with `w` a single whitespace and
`rebase` occurring in `rest`. -/
def RebaseLineSpec (l : Str) : Prop :=
  ∃ ws1 ws2 : Str, ∃ w : Char, ∃ rest : Str,
    (∀ c ∈ ws1, isWsC c = true) ∧ (∀ c ∈ ws2, isWsC c = true) ∧ isWsC w = true ∧
    containsStr rest rebaseStr = true ∧
    l = ws1 ++ '-' :: (ws2 ++ '[' :: w :: ']' :: rest)

theorem matchRebaseLine_of_decomp (ws1 ws2 : Str) (w : Char) (rest : Str)
    (h1 : ∀ c ∈ ws1, isWsC c = true) (h2 : ∀ c ∈ ws2, isWsC c = true)
    (hw : isWsC w = true) (hr : containsStr rest rebaseStr = true) :
    matchRebaseLine (ws1 ++ '-' :: (ws2 ++ '[' :: w :: ']' :: rest)) =
      some (ws1 ++ '-' :: (ws2 ++ '[' :: 'x' :: ']' :: rest)) := by
  obtain ⟨t1, d1⟩ := takeWhile_app isWsC ws1 '-' (ws2 ++ '[' :: w :: ']' :: rest) h1 (by decide)
  obtain ⟨t2, d2⟩ := takeWhile_app isWsC ws2 '[' (w :: ']' :: rest) h2 (by decide)
  unfold matchRebaseLine
  rw [t1, d1]
  dsimp only
  rw [if_pos rfl, t2, d2]
  dsimp only
  rw [if_pos ⟨rfl, rfl, hw, hr⟩]

theorem rebaseLineSpec_of_match (l : Str) (hm : (matchRebaseLine l).isSome = true) :
    RebaseLineSpec l := by
  unfold matchRebaseLine at hm
  rcases hd1 : l.dropWhile isWsC with _ | ⟨c1, r2⟩ <;> rw [hd1] at hm
  · simp at hm
  · dsimp only at hm
    by_cases hc1 : c1 = '-'
    · rw [if_pos hc1] at hm
      rcases hd2 : r2.dropWhile isWsC with _ | ⟨c2, r3⟩ <;> rw [hd2] at hm
      · simp at hm
      · rcases r3 with _ | ⟨w, r4⟩
        · simp at hm
        · rcases r4 with _ | ⟨c3, rest⟩
          · simp at hm
          · dsimp only at hm
            by_cases hcond : c2 = '[' ∧ c3 = ']' ∧ isWsC w = true ∧
                containsStr rest rebaseStr = true
            · obtain ⟨hb1, hb2, hb3, hb4⟩ := hcond
              refine ⟨l.takeWhile isWsC, r2.takeWhile isWsC, w, rest,
                fun c hc => List.mem_takeWhile_imp hc,
                fun c hc => List.mem_takeWhile_imp hc, hb3, hb4, ?_⟩
              subst hc1 hb1 hb2
              conv_lhs => rw [← List.takeWhile_append_dropWhile (p := isWsC) (l := l), hd1]
              congr 1
              congr 1
              conv_lhs => rw [← List.takeWhile_append_dropWhile (p := isWsC) (l := r2), hd2]
            · rw [if_neg hcond] at hm
              simp at hm
    · rw [if_neg hc1] at hm
      simp at hm


theorem rebaseLineSpec_iff (l : Str) :
    (matchRebaseLine l).isSome = true ↔ RebaseLineSpec l := by
  constructor
  · exact rebaseLineSpec_of_match l
  · rintro ⟨ws1, ws2, w, rest, hx1, hx2, hxw, hxr, rfl⟩
    rw [matchRebaseLine_of_decomp ws1 ws2 w rest hx1 hx2 hxw hxr]
    rfl

theorem takeWhile_all (p : Char → Bool) (l : Str) (h : ∀ x ∈ l, p x = true) :
    l.takeWhile p = l ∧ l.dropWhile p = [] := by
  induction l with
  | nil => simp
  | cons a t ih =>
    have ha : p a = true := h a (List.mem_cons_self a t)
    obtain ⟨ih1, ih2⟩ := ih (fun x hx => h x (List.mem_cons_of_mem a hx))
    refine ⟨?_, ?_⟩
    · simp [List.takeWhile, ha, ih1]
    · simp [List.dropWhile, ha, ih2]

theorem dropWhile_head (p : Char → Bool) (l : Str) (c : Char) (t : Str)
    (h : l.dropWhile p = c :: t) : p c = false := by
  induction l with
  | nil => simp at h
  | cons a s ih =>
    rw [List.dropWhile_cons] at h
    by_cases ha : p a
    · rw [if_pos ha] at h
      exact ih h
    · rw [if_neg ha] at h
      cases h
      simp only [Bool.not_eq_true] at ha
      exact ha

theorem mem_of_mem_dropWhile (p : Char → Bool) (l : Str) (x : Char)
    (h : x ∈ l.dropWhile p) : x ∈ l := by
  induction l with
  | nil => simp at h
  | cons a s ih =>
    rw [List.dropWhile_cons] at h
    by_cases ha : p a
    · rw [if_pos ha] at h
      exact List.mem_cons_of_mem a (ih h)
    · rw [if_neg ha] at h
      exact h

theorem all_of_dropWhile_nil (p : Char → Bool) (l : Str) (h : l.dropWhile p = []) :
    ∀ x ∈ l, p x = true := by
  intro x hx
  have := List.takeWhile_append_dropWhile (p := p) (l := l)
  rw [h, List.append_nil] at this
  exact List.mem_takeWhile_imp (by rw [this]; exact hx)

theorem dropWhile_append_all (p : Char → Bool) (xs ys : Str)
    (h : ∀ x ∈ xs, p x = true) : (xs ++ ys).dropWhile p = ys.dropWhile p := by
  induction xs with
  | nil => simp
  | cons a t ih =>
    have ha : p a = true := h a (List.mem_cons_self a t)
    rw [List.cons_append, List.dropWhile_cons, if_pos ha]
    exact ih (fun x hx => h x (List.mem_cons_of_mem a hx))

theorem dropWhile_append_cons (p : Char → Bool) (xs ys : Str) (c : Char) (t : Str)
    (h : xs.dropWhile p = c :: t) : (xs ++ ys).dropWhile p = c :: (t ++ ys) := by
  induction xs with
  | nil => simp at h
  | cons a s ih =>
    rw [List.dropWhile_cons] at h
    rw [List.cons_append, List.dropWhile_cons]
    by_cases ha : p a
    · rw [if_pos ha] at h ⊢
      exact ih h
    · rw [if_neg ha] at h ⊢
      cases h
      simp

theorem dropWhile_cons_false (p : Char → Bool) (c : Char) (t : Str) (h : p c = false) :
    (c :: t).dropWhile p = c :: t := by
  rw [List.dropWhile_cons, if_neg (by simp [h])]

theorem breakAtGt_sound (t u v : Str) (h : breakAtGt t = some (u, v)) :
    t = u ++ '>' :: v ∧ ∀ c ∈ u, c ≠ '>' := by
  induction t generalizing u with
  | nil => simp [breakAtGt] at h
  | cons a s ih =>
    rw [breakAtGt] at h
    by_cases ha : a = '>'
    · rw [if_pos ha] at h
      injection h with h
      injection h with h1 h2
      subst ha; subst h1; subst h2
      exact ⟨rfl, by simp⟩
    · rw [if_neg ha] at h
      cases hb : breakAtGt s with
      | none => rw [hb] at h; cases h
      | some p =>
        obtain ⟨u0, v0⟩ := p
        rw [hb] at h
        injection h with h
        injection h with h1 h2
        subst h2
        obtain ⟨he, hm⟩ := ih u0 hb
        subst h1
        refine ⟨by rw [List.cons_append, he], ?_⟩
        intro c hc
        rcases List.mem_cons.mp hc with rfl | hc
        · exact ha
        · exact hm c hc

theorem breakAtGt_complete (u v : Str) (hu : ∀ c ∈ u, c ≠ '>') :
    breakAtGt (u ++ '>' :: v) = some (u, v) := by
  induction u with
  | nil => simp [breakAtGt]
  | cons a t ih =>
    have ha : a ≠ '>' := hu a (List.mem_cons_self a t)
    rw [List.cons_append, breakAtGt, if_neg ha,
      ih (fun c hc => hu c (List.mem_cons_of_mem a hc))]

theorem parseComment_sound (s com v : Str) (h : parseComment s = some (com, v)) :
    CommentLang com ∧ s = com ++ v := by
  rw [parseComment] at h
  by_cases hpre : begins (str "<!--") s = true
  · rw [if_pos hpre] at h
    obtain ⟨t, ht⟩ := (begins_iff _ _).mp hpre
    have hdrop : s.drop 4 = t := by
      rw [ht]
      simp [str]
    rw [hdrop] at h
    cases hb : breakAtGt t with
    | none => rw [hb] at h; cases h
    | some p =>
      obtain ⟨u, w⟩ := p
      rw [hb] at h
      dsimp only at h
      by_cases hbeg : begins ['-', '-'] u.reverse = true
      · rw [if_pos hbeg] at h
        injection h with h
        injection h with h1 h2
        subst h2
        obtain ⟨he, hm⟩ := breakAtGt_sound t u w hb
        obtain ⟨z, hz⟩ := (begins_iff _ _).mp hbeg
        have hu : u = z.reverse ++ ['-', '-'] := by
          have := congrArg List.reverse hz
          simpa using this
        subst h1
        constructor
        · refine ⟨z.reverse, ?_, ?_⟩
          · intro c hc
            exact hm c (by rw [hu]; exact List.mem_append_left _ hc)
          · rw [hu]; simp
        · rw [ht, he]; simp [str]
      · rw [if_neg hbeg] at h; cases h
  · rw [if_neg hpre] at h; cases h

theorem parseComment_complete (com v : Str) (h : CommentLang com) :
    parseComment (com ++ v) = some (com, v) := by
  obtain ⟨interior, hint, rfl⟩ := h
  have hu : ∀ c ∈ interior ++ ['-', '-'], c ≠ '>' := by
    intro c hc
    rcases List.mem_append.mp hc with hc | hc
    · exact hint c hc
    · rcases List.mem_cons.mp hc with rfl | hc
      · decide
      · rcases List.mem_cons.mp hc with rfl | hc
        · decide
        · simp at hc
  have hshape : ('<' :: '!' :: '-' :: '-' :: (interior ++ '-' :: '-' :: '>' :: [])) ++ v
      = str "<!--" ++ ((interior ++ ['-', '-']) ++ '>' :: v) := by simp [str]
  have hdrop4 : (str "<!--" ++ ((interior ++ ['-', '-']) ++ '>' :: v)).drop 4
      = (interior ++ ['-', '-']) ++ '>' :: v := by simp [str]
  rw [hshape, parseComment, if_pos ((begins_iff _ _).mpr ⟨_, rfl⟩),
    hdrop4, breakAtGt_complete _ _ hu]
  have hbeg : begins ['-', '-'] (interior ++ ['-', '-']).reverse = true := by
    rw [List.reverse_append]
    exact (begins_iff _ _).mpr ⟨interior.reverse, by simp⟩
  dsimp only
  rw [if_pos hbeg]
  simp [str]

theorem findRebaseLine_sound (s ln rem : Str) (h : findRebaseLine s = some (ln, rem)) :
    s = ln ++ rem ∧ (∀ c ∈ ln, c ≠ '\n') ∧ containsStr ln rebaseStr = true ∧ LineEnd rem := by
  rw [findRebaseLine] at h
  by_cases hc : containsStr (s.takeWhile notNl) rebaseStr = true
  · rw [if_pos hc] at h
    injection h with h
    injection h with h1 h2
    subst h1; subst h2
    refine ⟨(List.takeWhile_append_dropWhile (p := notNl) (l := s)).symm, ?_, hc, ?_⟩
    · intro c hcm
      have := List.mem_takeWhile_imp hcm
      simpa [notNl] using this
    · cases hrem : s.dropWhile notNl with
      | nil => exact Or.inl rfl
      | cons a t =>
        have := dropWhile_head notNl s a t hrem
        have ha : a = '\n' := by simpa [notNl] using this
        exact Or.inr ⟨t, by rw [ha]⟩
  · rw [if_neg hc] at h; cases h

theorem rebase_chars_notNl : ∀ c ∈ rebaseStr, c ≠ '\n' := by decide

theorem findRebaseLine_complete (d1 d2 rem : Str)
    (h1 : ∀ c ∈ d1, c ≠ '\n') (h2 : ∀ c ∈ d2, c ≠ '\n') (hrem : LineEnd rem) :
    (findRebaseLine (d1 ++ rebaseStr ++ d2 ++ rem)).isSome = true := by
  have hD : ∀ c ∈ d1 ++ rebaseStr ++ d2, notNl c = true := by
    intro c hc
    rcases List.mem_append.mp hc with hc | hc
    · rcases List.mem_append.mp hc with hc | hc
      · simpa [notNl] using h1 c hc
      · simpa [notNl] using rebase_chars_notNl c hc
    · simpa [notNl] using h2 c hc
  have hline : ((d1 ++ rebaseStr ++ d2) ++ rem).takeWhile notNl = d1 ++ rebaseStr ++ d2 ∧
      ((d1 ++ rebaseStr ++ d2) ++ rem).dropWhile notNl = rem := by
    rcases hrem with rfl | ⟨t, rfl⟩
    · rw [List.append_nil]
      exact takeWhile_all notNl _ hD
    · exact ⟨(takeWhile_app notNl _ '\n' t hD (by decide)).1,
        (takeWhile_app notNl _ '\n' t hD (by decide)).2⟩
  rw [findRebaseLine]
  have harr : d1 ++ rebaseStr ++ d2 ++ rem = (d1 ++ rebaseStr ++ d2) ++ rem := by simp
  rw [harr, if_pos]
  · rfl
  · rw [hline.1]
    exact (containsStr_iff _ _).mpr ⟨d1, d2, rfl⟩


theorem dropWhile_append_notFirst (p : Char → Bool) (xs ys : Str) (c : Char) (t : Str)
    (hxs : xs = c :: t) (hc : p c = false) : (xs ++ ys).dropWhile p = xs ++ ys := by
  subst hxs
  rw [List.cons_append]
  exact dropWhile_cons_false p c (t ++ ys) hc

theorem r2Match_fb_sound (wsA s1 g2 rem : Str) (hws : ∀ c ∈ wsA, isWsC c = true)
    (h : (findRebaseLine s1).map (fun p => (wsA ++ p.1, p.2)) = some (g2, rem)) :
    wsA ++ s1 = g2 ++ rem ∧ G2Lang g2 ∧ LineEnd rem := by
  cases hf : findRebaseLine s1 with
  | none => rw [hf] at h; cases h
  | some p =>
    obtain ⟨ln, rm⟩ := p
    rw [hf] at h
    injection h with h
    injection h with h1 h2
    subst h1; subst h2
    obtain ⟨hs, hnl, hcont, hle⟩ := findRebaseLine_sound s1 ln rm hf
    obtain ⟨a, b, hab⟩ := (containsStr_iff _ _).mp hcont
    refine ⟨by rw [hs]; simp, ?_, hle⟩
    refine ⟨wsA, [], [], a, b, hws, Or.inl rfl, by simp, ?_, ?_, ?_⟩
    · intro c hc
      exact hnl c (by rw [hab]; exact List.mem_append_left _ (List.mem_append_left _ hc))
    · intro c hc
      exact hnl c (by rw [hab]; exact List.mem_append_right _ hc)
    · rw [hab]; simp

theorem r2Match_sound (rest g2 rem : Str) (h : r2Match rest = some (g2, rem)) :
    rest = g2 ++ rem ∧ G2Lang g2 ∧ LineEnd rem := by
  have hsplit : rest.takeWhile isWsC ++ rest.dropWhile isWsC = rest :=
    List.takeWhile_append_dropWhile isWsC rest
  have hwsA : ∀ c ∈ rest.takeWhile isWsC, isWsC c = true :=
    fun c hc => List.mem_takeWhile_imp hc
  rw [r2Match] at h
  dsimp only at h
  cases hpc : parseComment (rest.dropWhile isWsC) with
  | none =>
    rw [hpc] at h
    obtain ⟨he, hg, hle⟩ := r2Match_fb_sound _ _ _ _ hwsA h
    exact ⟨by rw [← hsplit, he], hg, hle⟩
  | some pc =>
    obtain ⟨com, v⟩ := pc
    rw [hpc] at h
    dsimp only at h
    obtain ⟨hcl, hs1⟩ := parseComment_sound _ com v hpc
    cases hfr : findRebaseLine (v.dropWhile isWsC) with
    | none =>
      rw [hfr] at h
      dsimp only at h
      obtain ⟨he, hg, hle⟩ := r2Match_fb_sound _ _ _ _ hwsA h
      exact ⟨by rw [← hsplit, he], hg, hle⟩
    | some p =>
      obtain ⟨ln, rm⟩ := p
      rw [hfr] at h
      dsimp only at h
      injection h with h
      injection h with h1 h2
      obtain ⟨hv, hnl, hcont, hle⟩ := findRebaseLine_sound _ ln rm hfr
      obtain ⟨a, b, hab⟩ := (containsStr_iff _ _).mp hcont
      have hwsB : ∀ c ∈ v.takeWhile isWsC, isWsC c = true :=
        fun c hc => List.mem_takeWhile_imp hc
      have hvsplit : v.takeWhile isWsC ++ v.dropWhile isWsC = v :=
        List.takeWhile_append_dropWhile isWsC v
      have hveq : v = v.takeWhile isWsC ++ (ln ++ rm) := by
        rw [← hv]
        exact hvsplit.symm
      refine ⟨?_, ?_, ?_⟩
      · rw [← h1, ← h2]
        conv_lhs => rw [← hsplit, hs1, hveq]
        simp
      · rw [← h1]
        refine ⟨rest.takeWhile isWsC, com, v.takeWhile isWsC, a, b,
          hwsA, Or.inr hcl, hwsB, ?_, ?_, ?_⟩
        · intro c hc
          exact hnl c (by rw [hab]; exact List.mem_append_left _ (List.mem_append_left _ hc))
        · intro c hc
          exact hnl c (by rw [hab]; exact List.mem_append_right _ hc)
        · rw [hab]; simp
      · rw [← h2]; exact hle

theorem r2Match_isSome_of_fb (rest : Str)
    (hfb : (findRebaseLine (rest.dropWhile isWsC)).isSome = true) :
    (r2Match rest).isSome = true := by
  obtain ⟨p, hp⟩ := Option.isSome_iff_exists.mp hfb
  rw [r2Match]
  dsimp only
  cases hpc : parseComment (rest.dropWhile isWsC) with
  | none => rw [hp]; rfl
  | some pc =>
    obtain ⟨com, v⟩ := pc
    dsimp only
    cases hfr : findRebaseLine (v.dropWhile isWsC) with
    | none => rw [hp]; rfl
    | some q => rfl

theorem findRebaseLine_dropWs (W d1 d2 rem : Str) (hW : ∀ c ∈ W, isWsC c = true)
    (h1 : ∀ c ∈ d1, c ≠ '\n') (h2 : ∀ c ∈ d2, c ≠ '\n') (hrem : LineEnd rem) :
    (findRebaseLine ((W ++ (d1 ++ (rebaseStr ++ (d2 ++ rem)))).dropWhile isWsC)).isSome
      = true := by
  rw [dropWhile_append_all isWsC W _ hW]
  cases hd1 : d1.dropWhile isWsC with
  | nil =>
    have hall := all_of_dropWhile_nil isWsC d1 hd1
    rw [dropWhile_append_all isWsC d1 _ hall,
      dropWhile_append_notFirst isWsC rebaseStr _ 'r' (str "ebase") rfl (by decide)]
    have := findRebaseLine_complete [] d2 rem (by simp) h2 hrem
    simpa using this
  | cons c t =>
    rw [dropWhile_append_cons isWsC d1 _ c t hd1]
    have hmem : ∀ x ∈ c :: t, x ≠ '\n' := fun x hx =>
      h1 x (mem_of_mem_dropWhile isWsC d1 x (by rw [hd1]; exact hx))
    have := findRebaseLine_complete (c :: t) d2 rem hmem h2 hrem
    simpa using this

theorem r2Match_complete (g2 rem : Str) (hg : G2Lang g2) (hrem : LineEnd rem) :
    (r2Match (g2 ++ rem)).isSome = true := by
  obtain ⟨wsA, cm, wsB, d1, d2, hA, hcm, hB, h1, h2, rfl⟩ := hg
  rcases hcm with rfl | hcl
  · have hsh : (wsA ++ [] ++ wsB ++ d1 ++ rebaseStr ++ d2) ++ rem
        = (wsA ++ wsB) ++ (d1 ++ (rebaseStr ++ (d2 ++ rem))) := by simp
    rw [hsh]
    refine r2Match_isSome_of_fb _ ?_
    refine findRebaseLine_dropWs (wsA ++ wsB) d1 d2 rem ?_ h1 h2 hrem
    intro c hc
    rcases List.mem_append.mp hc with hc | hc
    · exact hA c hc
    · exact hB c hc
  · obtain ⟨interior, hint, hcmeq⟩ := hcl
    have hsh : (wsA ++ cm ++ wsB ++ d1 ++ rebaseStr ++ d2) ++ rem
        = wsA ++ (cm ++ (wsB ++ (d1 ++ (rebaseStr ++ (d2 ++ rem))))) := by simp
    rw [hsh, r2Match]
    dsimp only
    have hdropA : (wsA ++ (cm ++ (wsB ++ (d1 ++ (rebaseStr ++ (d2 ++ rem)))))).dropWhile isWsC
        = cm ++ (wsB ++ (d1 ++ (rebaseStr ++ (d2 ++ rem)))) := by
      rw [dropWhile_append_all isWsC wsA _ hA]
      exact dropWhile_append_notFirst isWsC cm _ '<'
        ('!' :: '-' :: '-' :: (interior ++ '-' :: '-' :: '>' :: [])) hcmeq (by decide)
    rw [hdropA, parseComment_complete cm _ ⟨interior, hint, hcmeq⟩]
    dsimp only
    have hinner := findRebaseLine_dropWs wsB d1 d2 rem hB h1 h2 hrem
    obtain ⟨q, hq⟩ := Option.isSome_iff_exists.mp hinner
    rw [hq]
    rfl

theorem attemptMatch_sound (l rew rem : Str) (h : attemptMatch l = some (rew, rem)) :
    ∃ ws1 ws2 : Str, ∃ w : Char, ∃ g2 : Str,
      (∀ c ∈ ws1, isWsC c = true) ∧ (∀ c ∈ ws2, isWsC c = true) ∧ isWsC w = true ∧
      G2Lang g2 ∧ LineEnd rem ∧
      l = ws1 ++ '-' :: (ws2 ++ '[' :: w :: ']' :: (g2 ++ rem)) ∧
      rew = ws1 ++ '-' :: (ws2 ++ '[' :: 'x' :: ']' :: g2) := by
  rw [attemptMatch] at h
  dsimp only at h
  cases hd : l.dropWhile isWsC with
  | nil => rw [hd] at h; cases h
  | cons c1 r2 =>
    rw [hd] at h
    dsimp only at h
    by_cases hc1 : c1 = '-'
    · rw [if_pos hc1] at h
      cases hd2 : r2.dropWhile isWsC with
      | nil => rw [hd2] at h; cases h
      | cons c2 rest2 =>
        cases rest2 with
        | nil => rw [hd2] at h; cases h
        | cons w rest3 =>
          cases rest3 with
          | nil => rw [hd2] at h; cases h
          | cons c3 rest =>
            rw [hd2] at h
            dsimp only at h
            by_cases hcw : c2 = '[' ∧ c3 = ']' ∧ isWsC w = true
            · rw [if_pos hcw] at h
              obtain ⟨rfl, rfl, hw⟩ := hcw
              cases hr2 : r2Match rest with
              | none => rw [hr2] at h; cases h
              | some p =>
                obtain ⟨g2, rm⟩ := p
                rw [hr2] at h
                injection h with h
                injection h with hA hB
                subst hA; subst hB
                obtain ⟨hrest, hg, hle⟩ := r2Match_sound rest g2 rm hr2
                subst hc1
                refine ⟨l.takeWhile isWsC, r2.takeWhile isWsC, w, g2,
                  (fun c hc => List.mem_takeWhile_imp hc),
                  (fun c hc => List.mem_takeWhile_imp hc), hw, hg, hle, ?_, rfl⟩
                conv_lhs =>
                  rw [← List.takeWhile_append_dropWhile isWsC l, hd,
                    ← List.takeWhile_append_dropWhile isWsC r2, hd2, hrest]
            · rw [if_neg hcw] at h; cases h
    · rw [if_neg hc1] at h; cases h

theorem attemptMatch_complete (l : Str) (hm : MatchAt l) :
    (attemptMatch l).isSome = true := by
  obtain ⟨ws1, ws2, w, g2, rem, h1, h2, hw, hg, hrem, rfl⟩ := hm
  rw [attemptMatch]
  dsimp only
  have hdrop1 : (ws1 ++ '-' :: (ws2 ++ '[' :: w :: ']' :: (g2 ++ rem))).dropWhile isWsC
      = '-' :: (ws2 ++ '[' :: w :: ']' :: (g2 ++ rem)) := by
    rw [dropWhile_append_all isWsC ws1 _ h1]
    exact dropWhile_cons_false isWsC '-' _ (by decide)
  rw [hdrop1]
  dsimp only
  rw [if_pos rfl]
  have hdrop2 : (ws2 ++ '[' :: w :: ']' :: (g2 ++ rem)).dropWhile isWsC
      = '[' :: w :: ']' :: (g2 ++ rem) := by
    rw [dropWhile_append_all isWsC ws2 _ h2]
    exact dropWhile_cons_false isWsC '[' _ (by decide)
  rw [hdrop2]
  dsimp only
  rw [if_pos ⟨rfl, rfl, hw⟩]
  have := r2Match_complete g2 rem hg hrem
  obtain ⟨p, hp⟩ := Option.isSome_iff_exists.mp this
  rw [hp]
  rfl

theorem matchAt_iff (l : Str) : (attemptMatch l).isSome = true ↔ MatchAt l := by
  constructor
  · intro h
    obtain ⟨p, hp⟩ := Option.isSome_iff_exists.mp h
    obtain ⟨rew, rem⟩ := p
    obtain ⟨ws1, ws2, w, g2, hx1, hx2, hxw, hxg, hxle, hxl, _⟩ :=
      attemptMatch_sound l rew rem hp
    exact ⟨ws1, ws2, w, g2, rem, hx1, hx2, hxw, hxg, hxle, hxl⟩
  · exact attemptMatch_complete l

theorem attemptMatch_rem_length (l rew rem : Str) (h : attemptMatch l = some (rew, rem)) :
    rem.length < l.length := by
  obtain ⟨ws1, ws2, w, g2, _, _, _, _, _, hxl, _⟩ := attemptMatch_sound l rew rem h
  rw [hxl]
  simp [List.length_append]
  omega


theorem dropWhile_length_le (p : Char → Bool) (l : Str) :
    (l.dropWhile p).length ≤ l.length := by
  have h := congrArg List.length (List.takeWhile_append_dropWhile p l)
  rw [List.length_append] at h
  omega

theorem replaceAll_found_sound : ∀ fuel body, body.length < fuel →
    (replaceAllRebaseFuel fuel body).1 = true →
    ∃ pre suf : Str, body = pre ++ suf ∧ LineBoundary pre ∧ MatchAt suf := by
  intro fuel
  induction fuel with
  | zero => intro body h _; exact absurd h (Nat.not_lt_zero _)
  | succ n ih =>
    intro body hlen hfound
    rw [replaceAllRebaseFuel] at hfound
    cases ham : attemptMatch body with
    | some p =>
      have hm : MatchAt body := (matchAt_iff body).mp (by rw [ham]; rfl)
      exact ⟨[], body, by simp, Or.inl rfl, hm⟩
    | none =>
      rw [ham] at hfound
      dsimp only at hfound
      cases hdr : body.dropWhile notNl with
      | nil =>
        rw [hdr] at hfound
        simp at hfound
      | cons nl tail =>
        rw [hdr] at hfound
        dsimp only at hfound
        have hnl : nl = '\n' := by
          simpa [notNl] using dropWhile_head notNl body nl tail hdr
        subst hnl
        have hlt : tail.length < n := by
          have hd := congrArg List.length (List.takeWhile_append_dropWhile notNl body)
          rw [hdr, List.length_append] at hd
          simp at hd
          omega
        obtain ⟨pre, suf, hsp, hlb, hm⟩ := ih tail hlt hfound
        refine ⟨body.takeWhile notNl ++ '\n' :: pre, suf, ?_, ?_, hm⟩
        · conv_lhs => rw [← List.takeWhile_append_dropWhile notNl body, hdr, hsp]
          simp
        · rcases hlb with rfl | ⟨q, rfl⟩
          · exact Or.inr ⟨body.takeWhile notNl, by simp⟩
          · exact Or.inr ⟨body.takeWhile notNl ++ '\n' :: q, by simp⟩

theorem replaceAll_found_complete : ∀ fuel body, body.length < fuel →
    ∀ pre suf : Str, body = pre ++ suf → LineBoundary pre → MatchAt suf →
    (replaceAllRebaseFuel fuel body).1 = true := by
  intro fuel
  induction fuel with
  | zero => intro body h; exact absurd h (Nat.not_lt_zero _)
  | succ n ih =>
    intro body hlen pre suf hsp hlb hm
    rw [replaceAllRebaseFuel]
    cases ham : attemptMatch body with
    | some p =>
      obtain ⟨rew, rem⟩ := p
      dsimp only
      cases rem with
      | nil => rfl
      | cons nl tail => rfl
    | none =>
      dsimp only
      rcases hlb with rfl | ⟨q, rfl⟩
      · rw [List.nil_append] at hsp
        subst hsp
        exact absurd ((matchAt_iff body).mpr hm) (by rw [ham]; simp)
      · have hbody : body = q ++ '\n' :: suf := by rw [hsp]; simp
        by_cases hq : '\n' ∈ q
        · have hqd : ∃ q2, q.dropWhile notNl = '\n' :: q2 := by
            cases hqq : q.dropWhile notNl with
            | nil =>
              have := all_of_dropWhile_nil notNl q hqq '\n' hq
              simp [notNl] at this
            | cons c t =>
              have hc : c = '\n' := by
                simpa [notNl] using dropWhile_head notNl q c t hqq
              exact ⟨t, by rw [hc]⟩
          obtain ⟨q2, hqd⟩ := hqd
          have hq1 : ∀ c ∈ q.takeWhile notNl, notNl c = true :=
            fun c hc => List.mem_takeWhile_imp hc
          have hbd : body.dropWhile notNl = '\n' :: (q2 ++ '\n' :: suf) := by
            rw [hbody]
            conv_lhs => rw [← List.takeWhile_append_dropWhile notNl q, hqd]
            rw [List.append_assoc, dropWhile_append_all notNl _ _ hq1, List.cons_append]
            exact dropWhile_cons_false notNl '\n' _ (by decide)
          rw [hbd]
          dsimp only
          have hlt : (q2 ++ '\n' :: suf).length < n := by
            have h1 := dropWhile_length_le notNl body
            rw [hbd] at h1
            simp only [List.length_cons] at h1
            omega
          exact ih (q2 ++ '\n' :: suf) hlt (q2 ++ ['\n']) suf (by simp)
            (Or.inr ⟨q2, rfl⟩) hm
        · have hqnl : ∀ c ∈ q, notNl c = true := by
            intro c hc
            simp only [notNl, Bool.not_eq_true', beq_eq_false_iff_ne]
            intro hcn
            exact hq (hcn ▸ hc)
          have hdrop : body.dropWhile notNl = '\n' :: suf := by
            rw [hbody]
            exact (takeWhile_app notNl q '\n' suf hqnl (by decide)).2
          rw [hdrop]
          dsimp only
          have hlt : suf.length < n := by
            have h1 := congrArg List.length hbody
            rw [List.length_append, List.length_cons] at h1
            omega
          exact ih suf hlt [] suf (by simp) (Or.inl rfl) hm

theorem replaceAll_rew : ∀ fuel body, body.length < fuel →
    Rew body (replaceAllRebaseFuel fuel body).2 := by
  intro fuel
  induction fuel with
  | zero => intro body h; exact absurd h (Nat.not_lt_zero _)
  | succ n ih =>
    intro body hlen
    rw [replaceAllRebaseFuel]
    cases ham : attemptMatch body with
    | some p =>
      obtain ⟨rew, rem⟩ := p
      obtain ⟨ws1, ws2, w, g2, h1, h2, hw, hg, hle, hbody, hrew⟩ :=
        attemptMatch_sound body rew rem ham
      dsimp only
      cases rem with
      | nil =>
        rw [hbody, hrew]
        simp only [List.append_nil]
        exact Rew.hitLast ws1 ws2 w g2 h1 h2 hw hg
      | cons nl tail =>
        rcases hle with h | ⟨t, ht⟩
        · cases h
        · injection ht with hnl htail
          subst hnl; subst htail
          dsimp only
          have hlt : tail.length < n := by
            have h1 := attemptMatch_rem_length body rew ('\n' :: tail) ham
            rw [List.length_cons] at h1
            omega
          have hout := ih tail hlt
          rw [hbody, hrew]
          have heq : ws1 ++ '-' :: (ws2 ++ '[' :: 'x' :: ']' :: g2) ++
              '\n' :: (replaceAllRebaseFuel n tail).2
              = ws1 ++ '-' :: (ws2 ++ '[' :: 'x' :: ']' ::
                (g2 ++ '\n' :: (replaceAllRebaseFuel n tail).2)) := by simp
          rw [heq]
          exact Rew.hitCont ws1 ws2 w g2 tail _ h1 h2 hw hg hout
    | none =>
      dsimp only
      have hnm : ¬ MatchAt body := fun hmm =>
        absurd ((matchAt_iff body).mpr hmm) (by rw [ham]; simp)
      cases hdr : body.dropWhile notNl with
      | nil =>
        dsimp only
        have hbt : body.takeWhile notNl = body := by
          have h1 := List.takeWhile_append_dropWhile notNl body
          rw [hdr, List.append_nil] at h1
          exact h1
        rw [hbt]
        refine Rew.lastLine body ?_ hnm
        intro c hc
        have := all_of_dropWhile_nil notNl body hdr c hc
        simpa [notNl] using this
      | cons nl tail =>
        have hnl : nl = '\n' := by
          simpa [notNl] using dropWhile_head notNl body nl tail hdr
        subst hnl
        dsimp only
        have hlt : tail.length < n := by
          have h1 := dropWhile_length_le notNl body
          rw [hdr, List.length_cons] at h1
          omega
        have hout := ih tail hlt
        obtain ⟨tk, htk⟩ : ∃ tk, body.takeWhile notNl = tk := ⟨_, rfl⟩
        rw [htk]
        have hbody : body = tk ++ '\n' :: tail := by
          conv_lhs => rw [← List.takeWhile_append_dropWhile notNl body, hdr, htk]
        rw [hbody]
        refine Rew.skipLine tk tail _ ?_ ?_ hout
        · intro c hc
          have : c ∈ body.takeWhile notNl := by rw [htk]; exact hc
          simpa [notNl] using List.mem_takeWhile_imp this
        · rw [← hbody]
          exact hnm


/-- C8: the second half of the spec sentence is right — `CheckRenovateRebaseCheckbox`
returns the error `rebase checkbox not found in PR body` exactly when the
unchecked-checkbox pattern matches nowhere in the body, and on success returns the
body with every match rewritten, the whitespace between the brackets replaced by
`x` — but the claim's per-line reading of "a line matching" is too narrow: the
pattern's `\s*` parts cross newlines, so a match may start on one line and reach
`rebase` on a later one (see the counterexample).  Stated over the regex language:
the call errors iff no match starts at a line boundary, and an `ok` result is the
`Rew` rewrite of the body. -/
theorem spec_C8_rebase_checkbox :
    (∀ body : Str, (∃ e, CheckRenovateRebaseCheckbox body = Except.error e) ↔
      ∀ pre suf : Str, body = pre ++ suf → LineBoundary pre → ¬ MatchAt suf) ∧
    (∀ body out : Str, CheckRenovateRebaseCheckbox body = Except.ok out → Rew body out) := by
  constructor
  · intro body
    constructor
    · rintro ⟨e, he⟩ pre suf hsp hlb hm
      have hf := replaceAll_found_complete (body.length + 1) body (by omega)
        pre suf hsp hlb hm
      rw [CheckRenovateRebaseCheckbox] at he
      rw [replaceAllRebase] at he
      simp [hf] at he
    · intro hall
      have hf : (replaceAllRebaseFuel (body.length + 1) body).1 = false := by
        cases hb : (replaceAllRebaseFuel (body.length + 1) body).1 with
        | false => rfl
        | true =>
          obtain ⟨pre, suf, h1, h2, h3⟩ :=
            replaceAll_found_sound (body.length + 1) body (by omega) hb
          exact absurd h3 (hall pre suf h1 h2)
      refine ⟨str "rebase checkbox not found in PR body", ?_⟩
      rw [CheckRenovateRebaseCheckbox]
      rw [replaceAllRebase, hf]
      simp
  · intro body out hok
    have hr := replaceAll_rew (body.length + 1) body (by omega)
    rw [CheckRenovateRebaseCheckbox] at hok
    rw [replaceAllRebase] at hok
    cases hb : (replaceAllRebaseFuel (body.length + 1) body).1 with
    | false =>
      rw [hb] at hok
      simp at hok
    | true =>
      rw [hb] at hok
      simp only [if_true] at hok
      injection hok with hok
      rw [← hok]
      exact hr

/-- C8 counterexample to the claim's per-line reading: in the body
`- [ ]` newline `rebase`, no single line matches the pattern (the first has no
`rebase`, the second no checkbox), yet the code succeeds — Go's `\s*` crosses
the newline — and rewrites the checkbox. -/
theorem spec_C8_counterexample :
    CheckRenovateRebaseCheckbox (str "- [ ]\nrebase") = Except.ok (str "- [x]\nrebase") ∧
    splitChar '\n' (str "- [ ]\nrebase") = [str "- [ ]", str "rebase"] ∧
    ¬ RebaseLineSpec (str "- [ ]") ∧ ¬ RebaseLineSpec (str "rebase") := by
  refine ⟨by decide, by decide, ?_, ?_⟩
  · intro h
    exact absurd ((rebaseLineSpec_iff _).mpr h) (by decide)
  · intro h
    exact absurd ((rebaseLineSpec_iff _).mpr h) (by decide)

/-- C8 witness: the theorem applied to the body `- [ ] rebase`, whose `ok`
result is its `Rew` rewrite. -/
theorem spec_C8_rebase_checkbox_witness :
    Rew (str "- [ ] rebase") (str "- [x] rebase") :=
  spec_C8_rebase_checkbox.2 (str "- [ ] rebase") (str "- [x] rebase") (by decide)

/-! C4 — poll scheduling (spec-modelled) -/

theorem pollStep_foldl_idle (n : Nat) (os : List PollObs) :
    os.foldl (pollStep n) PollState.idle = PollState.idle := by
  induction os with
  | nil => rfl
  | cons o t ih => simpa [pollStep] using ih

theorem pollStep_foldl_exhaust (n : Nat) (os : List PollObs)
    (hnt : ∀ o ∈ os, pollTerminal o = false) :
    ∀ a : Nat, n ≤ a + os.length → 0 < os.length →
      os.foldl (pollStep n) (PollState.scheduled a) = PollState.idle := by
  induction os with
  | nil => intro a _ h0; exact absurd h0 (by simp)
  | cons o t ih =>
    intro a hn _
    have ho : pollTerminal o = false := hnt o (List.mem_cons_self o t)
    simp only [List.foldl_cons, pollStep, ho, if_false, Bool.false_eq_true]
    by_cases hlt : a + 1 < n
    · rw [if_pos hlt]
      have ht0 : 0 < t.length := by
        simp at hn
        omega
      exact ih (fun x hx => hnt x (List.mem_cons_of_mem o hx)) (a + 1) (by simp at hn ⊢; omega) ht0
    · rw [if_neg hlt]
      exact pollStep_foldl_idle n t

/-- C4 (modelled from the spec, there being no poll controller in the
source): the scheduled delays start at `d` and double up to the cap, `n`
consecutive non-terminal ticks drive the poll from its armed state back to
`Idle`, and a tick can retire the poll early only on a terminal
observation (CI not pending and mergeable state known). -/
theorem spec_C4_poll_backoff (d cap n : Nat) (hd : d ≤ cap) (hn : 1 ≤ n) :
    pollDelay d cap 0 = d ∧
    (∀ k, pollDelay d cap (k + 1) = min (2 * pollDelay d cap k) cap) ∧
    (∀ os : List PollObs, (∀ o ∈ os, pollTerminal o = false) → os.length = n →
      os.foldl (pollStep n) (PollState.scheduled 0) = PollState.idle) ∧
    (∀ (a : Nat) (o : PollObs), a + 1 < n →
      pollStep n (PollState.scheduled a) o = PollState.idle → pollTerminal o = true) := by
  refine ⟨?_, ?_, ?_, ?_⟩
  · simp [pollDelay]
    omega
  · intro k
    unfold pollDelay
    rw [pow_succ]
    have h2 : d * (2 ^ k * 2) = 2 * (d * 2 ^ k) := by ring
    rw [h2]
    rcases le_or_lt (d * 2 ^ k) cap with hle | hgt
    · rw [Nat.min_eq_left hle]
    · rw [Nat.min_eq_right (le_of_lt hgt)]
      omega
  · intro os hnt hlen
    exact pollStep_foldl_exhaust n os hnt 0 (by omega) (by omega)
  · intro a o hlt hstep
    by_contra hterm
    have hterm2 : pollTerminal o = false := by
      cases h : pollTerminal o
      · rfl
      · exact absurd h hterm
    simp [pollStep, hterm2, hlt] at hstep

theorem spec_C4_poll_backoff_witness :
    pollDelay 2 8 0 = 2 ∧
    pollDelay 2 8 1 = min (2 * pollDelay 2 8 0) 8 ∧
    [PollObs.mk StatusPending MergeableStateMergeable,
      PollObs.mk StatusPending MergeableStateMergeable,
      PollObs.mk StatusSuccess MergeableStateUnknown].foldl (pollStep 3)
        (PollState.scheduled 0) = PollState.idle :=
  have h := spec_C4_poll_backoff 2 8 3 (by decide) (by decide)
  ⟨h.1, h.2.1 0,
    h.2.2.1 [PollObs.mk StatusPending MergeableStateMergeable,
      PollObs.mk StatusPending MergeableStateMergeable,
      PollObs.mk StatusSuccess MergeableStateUnknown] (by decide) (by decide)⟩

end GhDeps
